import Mathlib

/-!
Verification of the HTML-to-React conversion pipeline (html-to-react.js).
The JavaScript source is shallowly embedded: DOM nodes become a mutual
inductive tree, string manipulation is modelled over explicit character
lists matching the semantics of the JavaScript string methods used by the
source, and the file system is an association list from paths to contents.
-/

namespace HtmlToReact

/-- Characters of a string. -/
def strChars (s : String) : List Char := s.data

/-- String from characters. -/
def ofChars (l : List Char) : String := String.mk l

/-- Model of JavaScript String.prototype.toLowerCase for the ASCII range. -/
def jsLower (s : String) : String := ofChars ((strChars s).map Char.toLower)

/-- ASCII whitespace, the fragment of the JavaScript whitespace class used here. -/
def isWsChar (c : Char) : Bool :=
  c = ' ' || c = '\t' || c = '\n' || c = '\r' || c = Char.ofNat 11 || c = Char.ofNat 12

/-- Model of String.prototype.trim on character lists. -/
def trimChars (l : List Char) : List Char :=
  ((l.dropWhile isWsChar).reverse.dropWhile isWsChar).reverse

/-- Model of String.prototype.trim. -/
def jsTrim (s : String) : String := ofChars (trimChars (strChars s))

/-- Split a character list at every occurrence of a separator character,
matching JavaScript String.prototype.split with a one-character separator. -/
def splitChars (sep : Char) : List Char → List (List Char)
  | [] => [[]]
  | c :: rest =>
    match splitChars sep rest with
    | [] => [[]]
    | h :: t => if c = sep then [] :: h :: t else (c :: h) :: t

/-- Model of String.prototype.split with a one-character separator. -/
def jsSplit (sep : Char) (s : String) : List String :=
  (splitChars sep (strChars s)).map ofChars

/-- Model of String.prototype.startsWith. -/
def jsStartsWith (s pre : String) : Bool :=
  (strChars pre).isPrefixOf (strChars s)

/-- Substring test on character lists. -/
def hasSubChars (needle : List Char) : List Char → Bool
  | [] => needle.isEmpty
  | c :: rest => needle.isPrefixOf (c :: rest) || hasSubChars needle rest

/-- Case-insensitive substring test; models the regex tests of the source,
which are all of the form slash-literal-slash-i on a literal word. -/
def icontains (hay needle : String) : Bool :=
  hasSubChars (strChars needle) (strChars (jsLower hay))

/-- Model of Array.prototype.join. -/
def joinSep (sep : String) : List String → String
  | [] => ""
  | [s] => s
  | s :: rest => s ++ sep ++ joinSep sep rest

/-- Model of String.prototype.repeat. -/
def repeatStr (s : String) : Nat → String
  | 0 => ""
  | n + 1 => s ++ repeatStr s n

/-- Values of a parsed style object: the parser only produces strings, while
formatStyleObject also accepts numbers, mirroring the typeof check. -/
inductive StyleValue where
  | str (s : String)
  | num (n : Int)
deriving DecidableEq, Repr

/-- JavaScript object property assignment on an insertion-ordered association
list: assigning an existing key updates it in place, a new key is appended. -/
def objSet (obj : List (String × StyleValue)) (k : String) (v : StyleValue) :
    List (String × StyleValue) :=
  if obj.any (fun e => e.1 == k) then
    obj.map (fun e => if e.1 == k then (k, v) else e)
  else obj ++ [(k, v)]

/-- Model of the regex replace of dash followed by a lowercase letter with
that letter uppercased, used to convert CSS property names to camelCase. -/
def cssCamelChars : List Char → List Char
  | [] => []
  | ['-'] => ['-']
  | '-' :: c :: rest =>
    if 'a' ≤ c && c ≤ 'z' then Char.toUpper c :: cssCamelChars rest
    else '-' :: cssCamelChars (c :: rest)
  | c :: rest => c :: cssCamelChars rest

/-- CSS property name to camelCase. -/
def cssCamel (s : String) : String := ofChars (cssCamelChars (strChars s))

/-- Processing of one semicolon-separated rule inside parseStyleString:
split at the colon, trim the first two parts, and when both are nonempty
assign the camelCased property on the style object. -/
def processStyleRule (styleObj : List (String × StyleValue)) (rule : String) :
    List (String × StyleValue) :=
  match (jsSplit ':' rule).map jsTrim with
  | property :: value :: _ =>
    if property != "" && value != "" then
      objSet styleObj (cssCamel property) (.str value)
    else styleObj
  | _ => styleObj

/-- parseStyleString from the source: split the inline style at semicolons,
drop empty rules, process each rule, and return null when nothing parsed. -/
def parseStyleString (styleStr : String) : Option (List (String × StyleValue)) :=
  if styleStr = "" then none
  else
    let rules := (jsSplit ';' styleStr).filter (fun r => r != "")
    let styleObj := rules.foldl processStyleRule []
    if styleObj.length > 0 then some styleObj else none

/-- Rendering of one style entry inside formatStyleObject: numbers are kept
as they are, any other value is wrapped in double quotes. -/
def formatStyleEntry (e : String × StyleValue) : String :=
  let formattedValue :=
    match e.2 with
    | .num n => toString n
    | .str s => "\"" ++ s ++ "\""
  e.1 ++ ": " ++ formattedValue

/-- formatStyleObject from the source: render the style object as a JSX
double-brace object literal. -/
def formatStyleObject (styleObj : Option (List (String × StyleValue))) : Option String :=
  match styleObj with
  | none => none
  | some obj =>
    some ("\x7b\x7b " ++ joinSep ", " (obj.map formatStyleEntry) ++ " \x7d\x7d")

/-- JSX_ATTR_MAP from the source: HTML attribute names that are renamed in JSX. -/
def JSX_ATTR_MAP : List (String × String) :=
  [("class", "className"), ("for", "htmlFor"), ("tabindex", "tabIndex"),
   ("readonly", "readOnly"), ("maxlength", "maxLength"), ("minlength", "minLength"),
   ("cellpadding", "cellPadding"), ("cellspacing", "cellSpacing"),
   ("rowspan", "rowSpan"), ("colspan", "colSpan"), ("usemap", "useMap"),
   ("frameborder", "frameBorder"), ("contenteditable", "contentEditable"),
   ("crossorigin", "crossOrigin"), ("datetime", "dateTime"), ("enctype", "encType"),
   ("formaction", "formAction"), ("formenctype", "formEncType"),
   ("formmethod", "formMethod"), ("formnovalidate", "formNoValidate"),
   ("formtarget", "formTarget"), ("hreflang", "hrefLang"), ("inputmode", "inputMode"),
   ("srcdoc", "srcDoc"), ("srcset", "srcSet"), ("autocomplete", "autoComplete"),
   ("autofocus", "autoFocus"), ("autoplay", "autoPlay")]

/-- Name translation through JSX_ATTR_MAP, defaulting to the given name. -/
def jsxAttrName (n : String) : String :=
  match JSX_ATTR_MAP.find? (fun e => e.1 == n) with
  | some e => e.2
  | none => n

/-- SELF_CLOSING_TAGS from the source. -/
def SELF_CLOSING_TAGS : List String :=
  ["area", "base", "br", "col", "embed", "hr", "img", "input",
   "link", "meta", "param", "source", "track", "wbr"]

/-- SKIP_TAGS from the source: tags dropped by the converter. -/
def SKIP_TAGS : List String := ["script", "style", "noscript", "link", "meta"]

mutual
/-- A DOM node as produced by the HTML parser: an element with its tag name
(as written in the markup), ordered attribute list and ordered child list,
or a text node, or a comment node. -/
inductive HNode where
  | element (tag : String) (attrs : List (String × String)) (children : HNodes)
  | text (s : String)
  | comment (s : String)
/-- An ordered list of DOM nodes. -/
inductive HNodes where
  | nil
  | cons (head : HNode) (tail : HNodes)
end

/-- Attribute lookup on an element; none on non-elements. -/
def elAttr (name : String) : HNode → Option String
  | .element _ attrs _ => (attrs.find? (fun a => a.1 == name)).map (fun a => a.2)
  | _ => none

/-- Tag of an element, empty for non-elements. -/
def elTag : HNode → String
  | .element tag _ _ => tag
  | _ => ""

/-- Model of the DOM id property: the id attribute, empty string if absent. -/
def elId (el : HNode) : String := (elAttr "id" el).getD ""

/-- Model of the DOM className property: the class attribute, empty if absent. -/
def elClassName (el : HNode) : String := (elAttr "class" el).getD ""

/-- Model of getAttribute for the role attribute. -/
def elRole (el : HNode) : Option String := elAttr "role" el

mutual
/-- Model of the DOM textContent property: concatenated data of all
descendant text nodes, in document order. -/
def textContent : HNode → String
  | .element _ _ children => textContentList children
  | .text s => s
  | .comment _ => ""
/-- textContent of a node list. -/
def textContentList : HNodes → String
  | .nil => ""
  | .cons h t => textContent h ++ textContentList t
end

mutual
/-- All element nodes of a tree in document (preorder) order, the tree root
included; querySelectorAll returns its matches in this order. -/
def preorderElems : HNode → List HNode
  | .element tag attrs children => .element tag attrs children :: preorderElemsList children
  | _ => []
/-- Preorder elements of a node list. -/
def preorderElemsList : HNodes → List HNode
  | .nil => []
  | .cons h t => preorderElems h ++ preorderElemsList t
end

/-- Converter options from the source constructor, with its defaults. -/
structure ConvOptions where
  preserveComments : Bool := false
  generateTypeScript : Bool := true
  componentPrefix : String := ""
  wrapWithFragment : Bool := true
  extractComponents : Bool := true
  minComponentDepth : Nat := 2
deriving DecidableEq, Repr

/-- The options object of a converter constructed with no overrides. -/
def defaultConvOptions : ConvOptions := {}

/-- One JSX attribute token as pushed by buildAttributes: a bare boolean
attribute, a regular name="value" attribute, or a parsed style object. -/
inductive JSXAttr where
  | bare (name : String)
  | strAttr (name : String) (value : String)
  | styleAttr (obj : List (String × StyleValue))
deriving DecidableEq, Repr

/-- Attribute name of a JSX attribute token. -/
def JSXAttr.attrName : JSXAttr → String
  | .bare n => n
  | .strAttr n _ => n
  | .styleAttr _ => "style"

/-- Processing of a single attribute inside buildAttributes, in source order:
lowercase the name, drop event handlers and framework data attributes,
translate the name, parse style, emit boolean-like values bare, and keep
everything else as name="value". -/
def buildAttribute (attr : String × String) : Option JSXAttr :=
  let name := jsLower attr.1
  let value := attr.2
  if jsStartsWith name "on" then none
  else if jsStartsWith name "data-react" || jsStartsWith name "data-v-" then none
  else
    let name := jsxAttrName name
    if name == "style" then
      match parseStyleString value with
      | some styleObj => some (.styleAttr styleObj)
      | none => none
    else if value == "" || value == name || value == "true" then
      some (.bare name)
    else if name == "className" then
      some (.strAttr name value)
    else
      some (.strAttr name value)

/-- buildAttributes from the source, over the ordered attribute list of an
element: each attribute contributes at most one token. -/
def buildAttributes (attrs : List (String × String)) : List JSXAttr :=
  attrs.filterMap buildAttribute

/-- Escaping of JSX special characters in text nodes: the two brace
characters become numeric character references. -/
def escapeJSXStr (s : String) : String :=
  ofChars ((strChars s).foldr
    (fun c acc =>
      (if c = Char.ofNat 123 then strChars "&#123;"
       else if c = Char.ofNat 125 then strChars "&#125;"
       else [c]) ++ acc) [])

/-- Model of JSON.stringify on a parsed style object (string escaping inside
values is not modelled; the parsed values contain no quotes here). -/
def jsonStringify (obj : List (String × StyleValue)) : String :=
  "\x7b" ++
    joinSep ","
      (obj.map (fun e =>
        "\"" ++ e.1 ++ "\":" ++
          (match e.2 with
           | .str s => "\"" ++ s ++ "\""
           | .num n => toString n))) ++
  "\x7d"

/-- Source text of one attribute token, as pushed by buildAttributes. -/
def attrToString : JSXAttr → String
  | .bare n => n
  | .strAttr n v => n ++ "=\"" ++ v ++ "\""
  | .styleAttr obj => "style=" ++ "\x7b" ++ jsonStringify obj ++ "\x7d"

mutual
/-- elementToJSX from the source: render a DOM node to JSX text at the given
indent. Text nodes are trimmed and escaped, comments are kept only under
preserveComments, skipped tags render to the empty string, and childless
elements fall back to their trimmed textContent. -/
def elementToJSX (opts : ConvOptions) (indent : Nat) : HNode → String
  | .text s =>
    let t := jsTrim s
    if t = "" then "" else escapeJSXStr t
  | .comment s =>
    if opts.preserveComments then
      repeatStr "  " indent ++ "\x7b/* " ++ jsTrim s ++ " */\x7d"
    else ""
  | .element tag attrs children =>
    let indentStr := repeatStr "  " indent
    let tagName := jsLower tag
    if SKIP_TAGS.contains tagName then ""
    else
      let attrTokens := buildAttributes attrs
      let attrsStr :=
        if attrTokens.length > 0 then " " ++ joinSep " " (attrTokens.map attrToString)
        else ""
      if SELF_CLOSING_TAGS.contains tagName then
        indentStr ++ "<" ++ tagName ++ attrsStr ++ " />"
      else
        match (childJSXStrings opts (indent + 1) children).filter (fun c => c != "") with
        | [] =>
          let tc := jsTrim (textContentList children)
          if tc != "" then
            indentStr ++ "<" ++ tagName ++ attrsStr ++ ">" ++ tc ++ "</" ++ tagName ++ ">"
          else
            indentStr ++ "<" ++ tagName ++ attrsStr ++ " />"
        | c :: rest =>
          if rest.isEmpty && !((strChars c).contains '\n') && (strChars c).length < 60 then
            indentStr ++ "<" ++ tagName ++ attrsStr ++ ">" ++ jsTrim c ++ "</" ++ tagName ++ ">"
          else
            joinSep "\n"
              ((indentStr ++ "<" ++ tagName ++ attrsStr ++ ">") :: (c :: rest) ++
                [indentStr ++ "</" ++ tagName ++ ">"])
/-- JSX strings of the children of an element, before the filter that drops
empty renderings. -/
def childJSXStrings (opts : ConvOptions) (indent : Nat) : HNodes → List String
  | .nil => []
  | .cons h t => elementToJSX opts indent h :: childJSXStrings opts indent t
end

mutual
/-- A node of the markup emitted by elementToJSX: an element with its tag,
attribute tokens and children, a text leaf, or a comment leaf. -/
inductive JSXNode where
  | elem (tag : String) (attrs : List JSXAttr) (children : JSXNodes)
  | text (s : String)
  | comment (s : String)
/-- An ordered list of emitted JSX nodes. -/
inductive JSXNodes where
  | nil
  | cons (head : JSXNode) (tail : JSXNodes)
end

mutual
/-- Structural content of the markup emitted by elementToJSX: the same case
analysis as elementToJSX, recording the emitted tag, attribute tokens and
child ordering instead of the rendered text. A node rendering to the empty
string is none. This records exactly which tokens the renderer writes; what
a re-parse of that text yields is a separate question, settled by skelOfJSX
below only on documents whose emitted tokens are canonical. -/
def elementToJSXTree (opts : ConvOptions) : HNode → Option JSXNode
  | .text s =>
    let t := jsTrim s
    if t = "" then none else some (.text (escapeJSXStr t))
  | .comment s =>
    if opts.preserveComments then some (.comment (jsTrim s)) else none
  | .element tag attrs children =>
    let tagName := jsLower tag
    if SKIP_TAGS.contains tagName then none
    else
      let attrTokens := buildAttributes attrs
      if SELF_CLOSING_TAGS.contains tagName then some (.elem tagName attrTokens .nil)
      else
        match childJSXTrees opts children with
        | .nil =>
          let tc := jsTrim (textContentList children)
          if tc != "" then some (.elem tagName attrTokens (.cons (.text tc) .nil))
          else some (.elem tagName attrTokens .nil)
        | ks => some (.elem tagName attrTokens ks)
/-- Emitted JSX trees of a child list, children rendering to nothing dropped,
order preserved. -/
def childJSXTrees (opts : ConvOptions) : HNodes → JSXNodes
  | .nil => .nil
  | .cons h t =>
    match elementToJSXTree opts h with
    | some j => .cons j (childJSXTrees opts t)
    | none => childJSXTrees opts t
end

mutual
/-- First regex replace of toPascalCase: remove each run of dashes,
underscores and whitespace, uppercasing the character following the run. -/
def pascalMain : List Char → List Char
  | [] => []
  | c :: rest =>
    if c = '-' || c = '_' || isWsChar c then pascalSep rest
    else c :: pascalMain rest
/-- Continuation of pascalMain inside a separator run. -/
def pascalSep : List Char → List Char
  | [] => []
  | c :: rest =>
    if c = '-' || c = '_' || isWsChar c then pascalSep rest
    else Char.toUpper c :: pascalMain rest
end

/-- ASCII letter or digit. -/
def isAlnumChar (c : Char) : Bool :=
  ('a' ≤ c && c ≤ 'z') || ('A' ≤ c && c ≤ 'Z') || ('0' ≤ c && c ≤ '9')

/-- toPascalCase from the source: collapse separator runs uppercasing the
following character, uppercase the first character, then strip every
character that is not an ASCII letter or digit. -/
def toPascalCase (s : String) : String :=
  let l := pascalMain (strChars s)
  let l2 := match l with
    | [] => []
    | c :: t => Char.toUpper c :: t
  ofChars (l2.filter isAlnumChar)

/-- The semantic tag-to-name map of suggestComponentName. -/
def semanticMap : List (String × String) :=
  [("header", "Header"), ("nav", "Navigation"), ("main", "MainContent"),
   ("aside", "Sidebar"), ("footer", "Footer"), ("article", "Article"),
   ("section", "Section")]

/-- suggestComponentName from the source. The mutable instance counter is
threaded explicitly: the result pairs the suggested name with the counter
after the call (it increments exactly on the ComponentN fallback). -/
def suggestComponentName (el : HNode) (counter : Nat) : String × Nat :=
  if elId el ≠ "" then (toPascalCase (elId el), counter)
  else
    let className := elClassName el
    if className ≠ "" then
      (toPascalCase ((jsSplit ' ' className).headD ""), counter)
    else
      match semanticMap.find? (fun e => e.1 == jsLower (elTag el)) with
      | some e => (e.2, counter)
      | none => ("Component" ++ toString (counter + 1), counter + 1)

/-- One entry of the class-pattern pass: a test on the class string and the
suggested component name. The tests of the source are case-insensitive
regexes on literal words, modelled as case-insensitive substring tests. -/
structure ClassPattern where
  test : String → Bool
  name : String

/-- classPatterns from the source. The regex nav(bar|igation)? matches
exactly when nav does, since its suffix group is optional. -/
def classPatterns : List ClassPattern :=
  [⟨fun s => icontains s "header", "Header"⟩,
   ⟨fun s => icontains s "nav", "Navigation"⟩,
   ⟨fun s => icontains s "sidebar", "Sidebar"⟩,
   ⟨fun s => icontains s "footer", "Footer"⟩,
   ⟨fun s => icontains s "card", "Card"⟩,
   ⟨fun s => icontains s "modal", "Modal"⟩,
   ⟨fun s => icontains s "table", "DataTable"⟩,
   ⟨fun s => icontains s "form", "Form"⟩,
   ⟨fun s => icontains s "button", "Button"⟩,
   ⟨fun s => icontains s "panel", "Panel"⟩,
   ⟨fun s => icontains s "container", "Container"⟩]

/-- A selector of the semantic pass: a tag name or an exact role value. -/
inductive Selector where
  | tagSel (t : String)
  | roleSel (r : String)

/-- semanticSelectors from the source, in declaration order. -/
def semanticSelectors : List Selector :=
  [.tagSel "header", .tagSel "nav", .tagSel "main", .tagSel "aside",
   .tagSel "footer", .tagSel "article", .tagSel "section",
   .roleSel "banner", .roleSel "navigation", .roleSel "main",
   .roleSel "complementary", .roleSel "contentinfo"]

/-- Selector match against an element. -/
def selMatches (sel : Selector) (el : HNode) : Bool :=
  match sel with
  | .tagSel t => jsLower (elTag el) == t
  | .roleSel r => elRole el == some r

/-- A detected component boundary. The DOM element reference of the source
is represented by the preorder index of the element in the document, which
models reference identity; the subtree itself is recovered from the index. -/
structure Boundary where
  type : String
  role : Option String
  id : String
  className : String
  elemIdx : Nat
  suggestedName : String
deriving DecidableEq, Repr

/-- The semantic pass of extractComponentBoundaries: for each selector in
order, every matching element (in document order) contributes one boundary
named by suggestComponentName, threading the component counter. -/
def semanticPass (elems : List (Nat × HNode)) (counter : Nat) :
    List Boundary × Nat :=
  semanticSelectors.foldl
    (fun acc sel =>
      (elems.filter (fun ie => selMatches sel ie.2)).foldl
        (fun acc2 ie =>
          let (nm, c') := suggestComponentName ie.2 acc2.2
          (acc2.1 ++
            [{ type := jsLower (elTag ie.2), role := elRole ie.2,
               id := elId ie.2, className := elClassName ie.2,
               elemIdx := ie.1, suggestedName := nm }], c'))
        acc)
    ([], counter)

/-- One element step of the class-pattern pass: only elements carrying a
class attribute are considered, the first matching pattern (declaration
order) wins, and a boundary is pushed unless a boundary for the same element
or for the same class string and tag already exists. -/
def classPatternStep (patterns : List ClassPattern) (boundaries : List Boundary)
    (i : Nat) (el : HNode) : List Boundary :=
  if (elAttr "class" el).isSome then
    match patterns.find? (fun cp => cp.test (elClassName el)) with
    | some cp =>
      if boundaries.any (fun b =>
          b.elemIdx == i ||
            (b.className == elClassName el && b.type == jsLower (elTag el))) then
        boundaries
      else
        boundaries ++
          [{ type := jsLower (elTag el), role := none, id := elId el,
             className := elClassName el, elemIdx := i, suggestedName := cp.name }]
    | none => boundaries
  else boundaries

/-- The class-pattern pass over the elements in document order. -/
def classPatternPass (patterns : List ClassPattern) :
    List (Nat × HNode) → List Boundary → List Boundary
  | [], boundaries => boundaries
  | ie :: rest, boundaries =>
    classPatternPass patterns rest (classPatternStep patterns boundaries ie.1 ie.2)

/-- The document handed to the converter: its body element, when present.
The semantic and class-pattern passes query the elements of this tree in
document order. -/
structure JSDoc where
  body : Option HNode

/-- The document-ordered, identity-indexed element list of a document. -/
def docElems (doc : JSDoc) : List (Nat × HNode) :=
  match doc.body with
  | some b => (preorderElems b).enum
  | none => []

/-- extractComponentBoundaries from the source, generalized over the class
pattern list (the source fixes it to classPatterns): the semantic pass
followed by the class-pattern pass, threading the component counter. -/
def extractComponentBoundariesWith (patterns : List ClassPattern) (doc : JSDoc)
    (counter : Nat) : List Boundary × Nat :=
  (classPatternPass patterns (docElems doc) (semanticPass (docElems doc) counter).1,
   (semanticPass (docElems doc) counter).2)

/-- extractComponentBoundaries exactly as in the source. -/
def extractComponentBoundaries (doc : JSDoc) (counter : Nat) :
    List Boundary × Nat :=
  extractComponentBoundariesWith classPatterns doc counter

mutual
/-- A node of the component tree of getComponentTree: tag, id (null when
empty), class string, and the trees of the element children. -/
inductive CompNode where
  | mk (tag : String) (id : Option String) (className : Option String)
       (children : CompNodes)
/-- An ordered list of component tree nodes. -/
inductive CompNodes where
  | nil
  | cons (head : CompNode) (tail : CompNodes)
end

mutual
/-- buildTree inside getComponentTree: non-element nodes yield null, skipped
tags yield null, and otherwise the node records tag, id, class string and
the recursively built element children in order. -/
def buildTree : HNode → Option CompNode
  | .element tag attrs children =>
    let tagName := jsLower tag
    if SKIP_TAGS.contains tagName then none
    else
      some (.mk tagName
        (if elId (.element tag attrs children) = "" then none
         else some (elId (.element tag attrs children)))
        (some (elClassName (.element tag attrs children)))
        (buildTreeList children))
  | _ => none
/-- buildTree mapped over a child list, null results dropped. -/
def buildTreeList : HNodes → CompNodes
  | .nil => .nil
  | .cons h t =>
    match buildTree h with
    | some c => .cons c (buildTreeList t)
    | none => buildTreeList t
end

/-- getComponentTree from the source: buildTree on the document body. -/
def getComponentTree (doc : JSDoc) : Option CompNode :=
  doc.body.bind buildTree

/-- A generated component record: name, file name, full file content and
the inner JSX. -/
structure GeneratedComponent where
  name : String
  filename : String
  content : String
  jsx : String
deriving DecidableEq, Repr

/-- generateComponent from the source: render the element at indent 2 and
wrap it in the component file template. -/
def generateComponent (opts : ConvOptions) (el : HNode) (componentName : String) :
    GeneratedComponent :=
  let jsx := elementToJSX opts 2 el
  let ext := if opts.generateTypeScript then "tsx" else "jsx"
  let propsType := if opts.generateTypeScript then ": React.FC" else ""
  { name := componentName
    filename := componentName ++ "." ++ ext
    content :=
      "import React from 'react';\n\nexport const " ++ componentName ++ propsType ++
      " = () => \x7b\n  return (\n" ++ jsx ++ "\n  );\n\x7d;\n\nexport default " ++
      componentName ++ ";\n"
    jsx := jsx }

/-- extractAllComponents from the source: one generated component per
detected boundary, named by its suggested name. The element reference of a
boundary is recovered from its preorder index. -/
def extractAllComponents (opts : ConvOptions) (doc : JSDoc) (counter : Nat) :
    List GeneratedComponent × Nat :=
  let (boundaries, c') := extractComponentBoundaries doc counter
  (boundaries.filterMap
    (fun b => ((docElems doc).find? (fun ie => ie.1 == b.elemIdx)).map
      (fun ie => generateComponent opts ie.2 b.suggestedName)), c')

/-- convertBody from the source: render the whole body, empty when the
document has no body. -/
def convertBody (opts : ConvOptions) (doc : JSDoc) : String :=
  match doc.body with
  | some b => elementToJSX opts 0 b
  | none => ""

/-- The record returned by convertHTMLToReact. -/
structure ConvResult where
  fullJSX : String
  components : List GeneratedComponent
  tree : Option CompNode
  boundaries : List Boundary

/-- convertHTMLToReact on an already parsed document: a fresh converter is
constructed per call, so the component counter starts at 0; the boundaries
field re-runs boundary extraction on the same instance, continuing from the
counter left by extractAllComponents. -/
def convertHTMLToReact (opts : ConvOptions) (doc : JSDoc) : ConvResult :=
  let (components, c1) := extractAllComponents opts doc 0
  let (boundaries, _) := extractComponentBoundaries doc c1
  { fullJSX := convertBody opts doc
    components := components
    tree := getComponentTree doc
    boundaries := boundaries }

/-- The file system as an association list from paths to file contents. -/
abbrev FS := List (String × String)

/-- File content lookup. -/
def fsLookup : FS → String → Option String
  | [], _ => none
  | e :: rest, p => if e.1 == p then some e.2 else fsLookup rest p

/-- Model of writeFileSync: replace the content of an existing path, or add
the file. -/
def fsWrite : FS → String → String → FS
  | [], p, c => [(p, c)]
  | e :: rest, p, c => if e.1 == p then (p, c) :: rest else e :: fsWrite rest p c

/-- Model of path.join for one directory level. -/
def pathJoin (dir file : String) : String := dir ++ "/" ++ file

/-- writeComponents from the source: write each component file into the
output directory (creating the directory is invisible to this file model)
and return the written paths in order. No other path is touched. -/
def writeComponents (components : List GeneratedComponent) (outputDir : String)
    (fs : FS) : FS × List String :=
  match components with
  | [] => (fs, [])
  | comp :: rest =>
    let filePath := pathJoin outputDir comp.filename
    let fs' := fsWrite fs filePath comp.content
    let (fs'', written) := writeComponents rest outputDir fs'
    (fs'', filePath :: written)

/-- loadFromFile from the source: existsSync then readFileSync; a missing
file raises the error naming the path. -/
def loadFromFile (fs : FS) (htmlPath : String) : Except String String :=
  match fsLookup fs htmlPath with
  | none => .error ("HTML file not found: " ++ htmlPath)
  | some html => .ok html

/-- The CLI main flow of the source for a conversion run, over the file
system model: load the input (jsdom parsing is the abstract parameter
parseHTML), convert, and write components when an output directory is given.
The catch branch prints the error and exits 1 without writing. The result is
the final file system, the exit code and the error output. -/
def runMain (parseHTML : String → JSDoc) (fs : FS) (inputPath : String)
    (outputDir : Option String) : FS × Nat × String :=
  match loadFromFile fs inputPath with
  | .error msg => (fs, 1, "Error: " ++ msg)
  | .ok html =>
    let result := convertHTMLToReact defaultConvOptions (parseHTML html)
    match outputDir with
    | some dir => ((writeComponents result.components dir fs).1, 0, "")
    | none => (fs, 0, "")

/-! Specification-side notions, written from the wording of the claims, to
be compared with the behavior of the embedded source. -/

/-- Strict lexicographic order on attribute pairs. -/
def pairLt (a b : String × String) : Bool :=
  a.1 < b.1 || (a.1 == b.1 && a.2 < b.2)

/-- Insertion into a sorted duplicate-free list of attribute pairs. -/
def insertSortedPair (x : String × String) :
    List (String × String) → List (String × String)
  | [] => [x]
  | y :: t => if x = y then y :: t else if pairLt x y then x :: y :: t else y :: insertSortedPair x t

/-- The set of attribute pairs of a list, as a sorted duplicate-free list. -/
def sortDedupPairs (l : List (String × String)) : List (String × String) :=
  l.foldr insertSortedPair []

/-- The element skeleton of a tree: tag name, the set of attribute
name-value pairs, and the ordered element children; the granularity at
which the round-trip claim compares trees. Text leaves are whitespace
normalized by rendering and are not part of the comparison. -/
inductive Skel where
  | node (tag : String) (attrs : List (String × String)) (children : List Skel)

mutual
/-- Skeleton of a DOM tree: text and comments carry no element structure. -/
def skelOfHNode : HNode → Option Skel
  | .element tag attrs children =>
    some (.node tag (sortDedupPairs attrs) (skelOfHNodes children))
  | _ => none
/-- Skeletons of the element children of a node list, in order. -/
def skelOfHNodes : HNodes → List Skel
  | .nil => []
  | .cons h t =>
    match skelOfHNode h with
    | some s => s :: skelOfHNodes t
    | none => skelOfHNodes t
end

/-- The attribute pair a JSX re-parse of one emitted attribute token reads
back: a bare token is a boolean attribute and re-parses with the empty
value, a name="value" token re-parses to that pair verbatim provided the
value text contains no double quote (which would end the quoted literal
early) and no ampersand (which would be entity-decoded) - cleanAttr below
restricts the round-trip theorem to exactly that case - and a style token
carries its serialized object text. -/
def JSXAttr.reparsedValue : JSXAttr → String
  | .bare _ => ""
  | .strAttr _ v => v
  | .styleAttr obj => jsonStringify obj

mutual
/-- Tree read back by re-parsing the markup whose tokens a JSXNode records.
On canonical token streams (see cleanNode) this is exactly what a JSX
parser returns for the rendered text: each emitted element token sequence
open-tag, attribute tokens, children, close-tag parses to one element with
those attribute pairs and those children. -/
def skelOfJSX : JSXNode → Option Skel
  | .elem tag attrs children =>
    some (.node tag
      (sortDedupPairs (attrs.map (fun t => (t.attrName, t.reparsedValue))))
      (skelOfJSXNodes children))
  | _ => none
/-- Skeletons of the element children of an emitted JSX node list. -/
def skelOfJSXNodes : JSXNodes → List Skel
  | .nil => []
  | .cons h t =>
    match skelOfJSX h with
    | some s => s :: skelOfJSXNodes t
    | none => skelOfJSXNodes t
end

/-- The round-trip property claimed for the converter, at one document:
re-parsing the markup rendered from the document yields a tree with
identical tag names, identical attribute name-value sets and identical
element child ordering. The re-parse is modelled by reading the emitted
token structure back through skelOfJSX; this reading coincides with an
actual parse of the rendered text exactly on the canonical domain that
cleanNode carves out (safe name tokens, quoted quote- and ampersand-free
values, no markup-significant characters in text), and the amended theorem
is stated only on that domain. -/
def roundTripPreserves (n : HNode) : Prop :=
  (elementToJSXTree defaultConvOptions n).bind skelOfJSX = skelOfHNode n

/-- A safe markup name token: a lowercase ASCII letter followed by
lowercase letters, digits or dashes. Tags and attribute names of this shape
are emitted verbatim and re-parse as one token. -/
def markupNameSafe (t : String) : Bool :=
  match strChars t with
  | [] => false
  | c :: rest =>
    ('a' ≤ c && c ≤ 'z') &&
    rest.all (fun d => ('a' ≤ d && d ≤ 'z') || ('0' ≤ d && d ≤ '9') || d = '-')

/-- An attribute value that survives rendering and re-parsing verbatim: it
contains no double quote (the renderer does not escape quotes, so a quote
would end the emitted quoted literal early) and no ampersand (a re-parser
would entity-decode it). -/
def attrValueSafe (v : String) : Bool :=
  (strChars v).all (fun c => !(c = '"') && !(c = '&'))

/-- Text that re-parses as plain text: no angle bracket opening a phantom
element, no ampersand starting an entity, and no braces (the renderer
escapes braces in ordinary text but not in the textContent fallback, and a
raw brace would open a JSX expression). -/
def textSafe (s : String) : Bool :=
  (strChars s).all (fun c =>
    !(c = '<') && !(c = '&') && !(c = Char.ofNat 123) && !(c = Char.ofNat 125))

/-- Pairwise distinct attribute names, as the DOM guarantees. -/
def nodupKeys : List (String × String) → Bool
  | [] => true
  | a :: t => !(t.any (fun b => b.1 == a.1)) && nodupKeys t

/-- An attribute the converter transports unchanged and whose emitted token
re-parses to the original pair: a safe lowercase name that is not an event
handler, not a framework data attribute, not style and not renamed by the
JSX attribute map; and a nonempty quote- and ampersand-free value distinct
from the name and from the string true, so the boolean-attribute rewrite
does not fire and the token is emitted as name="value" with the value
verbatim. -/
def cleanAttr (a : String × String) : Bool :=
  markupNameSafe a.1 && jsLower a.1 == a.1 && !(jsStartsWith a.1 "on") &&
  !(jsStartsWith a.1 "data-react") && !(jsStartsWith a.1 "data-v-") &&
  a.1 != "style" && jsxAttrName a.1 == a.1 &&
  attrValueSafe a.2 && a.2 != "" && a.2 != a.1 && a.2 != "true"

/-- Whether a node list contains no element node. -/
def noElems : HNodes → Bool
  | .nil => true
  | .cons (.element _ _ _) _ => false
  | .cons _ t => noElems t

mutual
/-- A document whose rendering is canonical markup, so that re-parsing the
rendered text returns exactly the emitted structure: safe lowercase tags
outside the skip set, pairwise distinct clean attributes, text free of
markup-significant characters, and no element children below tags the
renderer emits as self-closing. On this domain every emitted token stream
is a sequence of well-delimited open tags with quoted literal values,
literal text runs and close tags, and a parse reads it back unambiguously;
outside it the renderer emits text it does not escape and the round trip
can break. -/
def cleanNode : HNode → Bool
  | .element tag attrs children =>
    markupNameSafe tag && jsLower tag == tag && !(SKIP_TAGS.contains tag) &&
    attrs.all cleanAttr && nodupKeys attrs &&
    (!(SELF_CLOSING_TAGS.contains tag) || noElems children) && cleanNodes children
  | .text s => textSafe s
  | .comment _ => true
/-- cleanNode over a node list. -/
def cleanNodes : HNodes → Bool
  | .nil => true
  | .cons h t => cleanNode h && cleanNodes t
end

/-- The attribute translation claimed in C2, read literally: event handlers
and framework data attributes are stripped, style is parsed to a map, and
every other attribute is preserved with its value under the translated
name. -/
def specAttrClaim (n v : String) : Option JSXAttr :=
  let lname := jsLower n
  if jsStartsWith lname "on" then none
  else if jsStartsWith lname "data-react" || jsStartsWith lname "data-v-" then none
  else if lname == "style" then (parseStyleString v).map .styleAttr
  else some (.strAttr (jsxAttrName lname) v)

/-- The attribute translation amended by the boolean-attribute exception the
source actually implements: a value that is empty, equal to the translated
name, or the string true is emitted as a bare attribute name. -/
def specAttrAmended (n v : String) : Option JSXAttr :=
  let lname := jsLower n
  if jsStartsWith lname "on" then none
  else if jsStartsWith lname "data-react" || jsStartsWith lname "data-v-" then none
  else if lname == "style" then (parseStyleString v).map .styleAttr
  else
    let tname := jsxAttrName lname
    if v == "" || v == tname || v == "true" then some (.bare tname)
    else some (.strAttr tname v)

/-- First class name of a class attribute value, in the DOM sense: the first
nonempty space-separated token. -/
def firstClassName (s : String) : String :=
  ((jsSplit ' ' s).filter (fun t => t != "")).headD ""

/-- The text of a class attribute before its first space character, which is
what the source actually takes as the main class. -/
def firstSpaceField (s : String) : String := (jsSplit ' ' s).headD ""

/-- The naming rule claimed in C5, read literally: PascalCase of the id,
else PascalCase of the first class name, else the semantic default for the
tag, else a fresh counter-based ComponentN name. -/
def specSuggestClaim (el : HNode) (counter : Nat) : String × Nat :=
  if elId el ≠ "" then (toPascalCase (elId el), counter)
  else if elClassName el ≠ "" then
    (toPascalCase (firstClassName (elClassName el)), counter)
  else
    match semanticMap.find? (fun e => e.1 == jsLower (elTag el)) with
    | some e => (e.2, counter)
    | none => ("Component" ++ toString (counter + 1), counter + 1)

/-- Split a character list at the first occurrence of a separator. -/
def splitFirstAt (sep : Char) : List Char → Option (List Char × List Char)
  | [] => none
  | c :: rest =>
    if c = sep then some ([], rest)
    else (splitFirstAt sep rest).map (fun p => (c :: p.1, p.2))

/-- The style map claimed in C8, read literally: one entry per
semicolon-separated declaration, keyed by the camelCased property and
holding the trimmed value text after the first colon, null when no
declarations are present. -/
def specStyleMap (s : String) : Option (List (String × StyleValue)) :=
  let decls := ((jsSplit ';' s).filter (fun r => r != "")).filterMap (fun r =>
    match splitFirstAt ':' (strChars r) with
    | some (p, v) =>
      let p' := jsTrim (ofChars p)
      let v' := jsTrim (ofChars v)
      if p' != "" && v' != "" then some (cssCamel p', StyleValue.str v') else none
    | none => none)
  if decls.isEmpty then none else some decls

/-- Canonical inline rendering of a declaration list, semicolon-separated. -/
def renderDecls : List (String × String) → String
  | [] => ""
  | [d] => d.1 ++ ": " ++ d.2
  | d :: rest => d.1 ++ ": " ++ d.2 ++ ";" ++ renderDecls rest

/-- A string that is nonempty and has no leading or trailing whitespace. -/
def noWsEnds (s : String) : Bool :=
  match strChars s, (strChars s).reverse with
  | c :: _, d :: _ => !isWsChar c && !isWsChar d
  | _, _ => false

/-- A well-formed style declaration: trimmed nonempty property and value,
free of separator characters. -/
def wfDecl (p v : String) : Bool :=
  noWsEnds p && noWsEnds v &&
  (strChars p).all (fun c => !(c = ';') && !(c = ':')) &&
  (strChars v).all (fun c => !(c = ';') && !(c = ':'))

mutual
/-- No element of the emitted JSX carries a tag from the skip set. -/
def jsxNoSkip : JSXNode → Bool
  | .elem tag _ children => !(SKIP_TAGS.contains tag) && jsxNoSkipList children
  | _ => true
/-- jsxNoSkip over an emitted node list. -/
def jsxNoSkipList : JSXNodes → Bool
  | .nil => true
  | .cons h t => jsxNoSkip h && jsxNoSkipList t
end

mutual
/-- No node of a component tree carries a tag from the skip set. -/
def compNoSkip : CompNode → Bool
  | .mk tag _ _ children => !(SKIP_TAGS.contains tag) && compNoSkipList children
/-- compNoSkip over a component tree list. -/
def compNoSkipList : CompNodes → Bool
  | .nil => true
  | .cons h t => compNoSkip h && compNoSkipList t
end

/-! Helper lemmas. -/

/-- No translated name in the JSX attribute map is the style attribute, so
testing style before or after translation is equivalent. -/
theorem jsxAttrName_eq_style_iff (s : String) : jsxAttrName s = "style" ↔ s = "style" := by
  constructor
  · intro h
    unfold jsxAttrName at h
    cases hf : JSX_ATTR_MAP.find? (fun e => e.1 == s) with
    | none => rw [hf] at h; exact h
    | some e =>
      rw [hf] at h
      have hmem := List.mem_of_find?_eq_some hf
      have hv : ∀ x ∈ JSX_ATTR_MAP, x.2 ≠ "style" := by decide
      exact absurd h (hv e hmem)
  · intro h; subst h; rfl

/-- Pointwise agreement of the source attribute processing with the amended
specification. -/
theorem buildAttribute_eq_specAmended (a : String × String) :
    buildAttribute a = specAttrAmended a.1 a.2 := by
  obtain ⟨n, v⟩ := a
  unfold buildAttribute specAttrAmended
  by_cases h1 : jsStartsWith (jsLower n) "on"
  · simp [h1]
  · simp only [h1, Bool.false_eq_true, if_false]
    by_cases h2 : (jsStartsWith (jsLower n) "data-react" || jsStartsWith (jsLower n) "data-v-")
    · simp [h2]
    · simp only [h2, Bool.false_eq_true, if_false]
      by_cases h3 : jsLower n = "style"
      · have h3' : jsxAttrName (jsLower n) = "style" := (jsxAttrName_eq_style_iff _).mpr h3
        rw [h3] at h3'
        simp only [h3, h3', beq_self_eq_true, if_true]
        cases parseStyleString v <;> simp
      · have h3' : jsxAttrName (jsLower n) ≠ "style" := fun hc =>
          h3 ((jsxAttrName_eq_style_iff _).mp hc)
        simp only [beq_eq_false_iff_ne.mpr h3', beq_eq_false_iff_ne.mpr h3,
          Bool.false_eq_true, if_false]
        by_cases h4 : (v == "" || v == jsxAttrName (jsLower n) || v == "true")
        · simp [h4]
        · simp only [h4, Bool.false_eq_true, if_false]
          by_cases h5 : jsxAttrName (jsLower n) == "className" <;> simp [h5]

/-- Lookup after a write: the written path reads back the new content, any
other path is unaffected. -/
theorem fsLookup_fsWrite (fs : FS) (p c q : String) :
    fsLookup (fsWrite fs p c) q = if p == q then some c else fsLookup fs q := by
  induction fs with
  | nil => simp [fsWrite, fsLookup]
  | cons e rest ih =>
    by_cases h : e.1 == p
    · have h' : e.1 = p := by simpa using h
      simp only [fsWrite, h, if_true, fsLookup]
      by_cases hq : p == q
      · simp [hq]
      · have hq' : ¬ (e.1 == q) := by
          rw [h']; exact fun hc => absurd hc (by simpa using hq)
        simp [hq, hq', fsLookup]
    · simp only [fsWrite, h, Bool.false_eq_true, if_false, fsLookup]
      by_cases hq : e.1 == q
      · have hpq : ¬ (p == q) := by
          intro hc
          have : e.1 = q := by simpa using hq
          have : e.1 = p := by simp [this, (by simpa using hc : p = q)]
          exact absurd (show (e.1 == p) = true by simpa using this) h
        simp [hq, hpq, ih]
      · simp [hq, ih]

/-- The paths written by writeComponents are exactly one per component. -/
theorem writeComponents_written (comps : List GeneratedComponent) (dir : String) :
    ∀ fs, (writeComponents comps dir fs).2 = comps.map (fun c => pathJoin dir c.filename) := by
  induction comps with
  | nil => intro fs; rfl
  | cons c rest ih => intro fs; simp [writeComponents, ih]

/-- writeComponents leaves every path it does not write unchanged; in
particular it creates no backup file. -/
theorem writeComponents_frame (comps : List GeneratedComponent) (dir : String) :
    ∀ fs p, p ∉ comps.map (fun c => pathJoin dir c.filename) →
      fsLookup (writeComponents comps dir fs).1 p = fsLookup fs p := by
  induction comps with
  | nil => intro fs p _; rfl
  | cons c rest ih =>
    intro fs p hp
    simp only [List.map_cons, List.mem_cons, not_or] at hp
    obtain ⟨hp1, hp2⟩ := hp
    simp only [writeComponents]
    rw [ih _ p (by simpa using hp2), fsLookup_fsWrite]
    have hne : ¬ (pathJoin dir c.filename == p) = true := by
      intro hc
      have heq : pathJoin dir c.filename = p := by simpa using hc
      exact hp1 heq.symm
    simp [hne]

/-! Claim C2: attribute translation. -/

/-- C2 counterexample: an attribute whose value is the string true is not
preserved with its value; the source emits it as a bare boolean attribute,
against the literal reading of the claim. -/
theorem attr_value_not_preserved_cex :
    buildAttributes [("data-x", "true")] = [JSXAttr.bare "data-x"] ∧
    [("data-x", "true")].filterMap (fun a => specAttrClaim a.1 a.2) =
      [JSXAttr.strAttr "data-x" "true"] ∧
    JSXAttr.bare "data-x" ≠ JSXAttr.strAttr "data-x" "true" := by
  refine ⟨by decide, by decide, by decide⟩

/-- C2 (amended): buildAttributes translates attribute names through the JSX
map, strips event handlers and framework data attributes, parses inline
style to a property map, and preserves every other attribute with its value,
except that a value that is empty, equal to the translated name, or the
string true is emitted as a bare boolean attribute. -/
theorem buildAttributes_spec (attrs : List (String × String)) :
    buildAttributes attrs = attrs.filterMap (fun a => specAttrAmended a.1 a.2) := by
  unfold buildAttributes
  have : buildAttribute = fun a : String × String => specAttrAmended a.1 a.2 :=
    funext buildAttribute_eq_specAmended
  rw [this]

/-! Claim C4: backups before destructive writes. -/

/-- The file system before the run of the C4 counterexample. -/
def oldFS : FS := [("out/A.tsx", "old")]

/-- The component overwriting the existing file in the C4 counterexample. -/
def compA : GeneratedComponent := ⟨"A", "A.tsx", "new", ""⟩

/-- C4 counterexample: writeComponents overwrites an existing file and the
prior contents survive nowhere in the resulting file system, so no backup of
the pre-edit state was taken. -/
theorem writeComponents_backup_cex :
    fsLookup oldFS "out/A.tsx" = some "old" ∧
    (writeComponents [compA] "out" oldFS).1 = [("out/A.tsx", "new")] ∧
    ¬ ∃ p, fsLookup (writeComponents [compA] "out" oldFS).1 p = some "old" := by
  refine ⟨rfl, rfl, ?_⟩
  rintro ⟨p, hp⟩
  have hw : (writeComponents [compA] "out" oldFS).1 = [("out/A.tsx", "new")] := rfl
  rw [hw] at hp
  unfold fsLookup at hp
  by_cases h : (("out/A.tsx" : String) == p) = true
  · rw [if_pos h] at hp
    exact absurd (Option.some.inj hp) (by decide)
  · rw [if_neg h] at hp
    exact Option.noConfusion hp

/-- C4 (amended): writeComponents writes exactly one file per component,
overwriting existing files in place; every other path, in particular any
would-be backup path, is left untouched, so no backup of the pre-edit state
is created. -/
theorem writeComponents_no_backup (comps : List GeneratedComponent) (dir : String) (fs : FS) :
    (writeComponents comps dir fs).2 = comps.map (fun c => pathJoin dir c.filename) ∧
    ∀ p, p ∉ comps.map (fun c => pathJoin dir c.filename) →
      fsLookup (writeComponents comps dir fs).1 p = fsLookup fs p :=
  ⟨writeComponents_written comps dir fs, fun p hp => writeComponents_frame comps dir fs p hp⟩

/-- Witness for the amended C4 theorem at a concrete overwrite. -/
theorem writeComponents_no_backup_witness :
    ("out/A.tsx.backup" ∉ [compA].map (fun c => pathJoin "out" c.filename)) ∧
    fsLookup (writeComponents [compA] "out" oldFS).1 "out/A.tsx.backup" =
      fsLookup oldFS "out/A.tsx.backup" :=
  ⟨by decide, (writeComponents_no_backup [compA] "out" oldFS).2 "out/A.tsx.backup" (by decide)⟩

/-! Claim C5: suggested component names. -/

/-- An element whose class attribute starts with a space. -/
def spacedClassEl : HNode := .element "div" [("class", " foo")] .nil

/-- C5 counterexample: for a class attribute with a leading space the source
suggests the empty string, not the PascalCase of the first class name. -/
theorem suggest_name_cex :
    suggestComponentName spacedClassEl 0 = ("", 0) ∧
    specSuggestClaim spacedClassEl 0 = ("Foo", 0) ∧
    suggestComponentName spacedClassEl 0 ≠ specSuggestClaim spacedClassEl 0 := by
  refine ⟨by decide, by decide, by decide⟩

/-- C5 (amended): the suggested name is the PascalCase id when an id is
present, else the PascalCase of the text of the class attribute before its
first space character (not of the first class name), else the fixed semantic
default for the tag, else a fresh counter-based ComponentN name. -/
theorem suggestComponentName_priority (el : HNode) (counter : Nat) :
    (elId el ≠ "" → suggestComponentName el counter = (toPascalCase (elId el), counter)) ∧
    (elId el = "" → elClassName el ≠ "" →
      suggestComponentName el counter =
        (toPascalCase (firstSpaceField (elClassName el)), counter)) ∧
    (∀ e, elId el = "" → elClassName el = "" →
      semanticMap.find? (fun e0 => e0.1 == jsLower (elTag el)) = some e →
      suggestComponentName el counter = (e.2, counter)) ∧
    (elId el = "" → elClassName el = "" →
      semanticMap.find? (fun e0 => e0.1 == jsLower (elTag el)) = none →
      suggestComponentName el counter = ("Component" ++ toString (counter + 1), counter + 1)) := by
  refine ⟨?_, ?_, ?_, ?_⟩
  · intro h; simp [suggestComponentName, h]
  · intro h1 h2; simp [suggestComponentName, h1, h2, firstSpaceField]
  · intro e h1 h2 h3; simp [suggestComponentName, h1, h2, h3]
  · intro h1 h2 h3; simp [suggestComponentName, h1, h2, h3]

/-- Witness for the amended C5 theorem on an element with an id. -/
theorem suggestComponentName_priority_witness :
    elId (.element "div" [("id", "my-header")] .nil) ≠ "" ∧
    suggestComponentName (.element "div" [("id", "my-header")] .nil) 5 = ("MyHeader", 5) :=
  ⟨by decide,
   by
    have h := (suggestComponentName_priority (.element "div" [("id", "my-header")] .nil) 5).1
      (by decide)
    simpa using h⟩

/-! Claim C6: emitted files. -/

/-- A captured page whose body holds one semantic header element. -/
def headerDoc : JSDoc :=
  ⟨some (.element "body" [] (.cons (.element "header" [("class", "site-header")] .nil) .nil))⟩

/-- C6 counterexample: converting and writing a page produces exactly the
per-component files; no index file and no registry file is emitted. -/
theorem no_index_or_registry_cex :
    (writeComponents (convertHTMLToReact defaultConvOptions headerDoc).components
        "components" []).2 = ["components/SiteHeader.tsx"] ∧
    ((writeComponents (convertHTMLToReact defaultConvOptions headerDoc).components
        "components" []).2.any (fun p => icontains p "index")) = false ∧
    ((writeComponents (convertHTMLToReact defaultConvOptions headerDoc).components
        "components" []).2.any (fun p => icontains p "registry")) = false := by
  refine ⟨rfl, by decide, by decide⟩

/-- C6 (amended): when components are rendered and written out, the written
files are exactly one source file per generated component; no index file and
no registry file is produced by convertHTMLToReact together with
writeComponents. -/
theorem convert_write_only_component_files (opts : ConvOptions) (doc : JSDoc)
    (dir : String) (fs : FS) :
    (writeComponents (convertHTMLToReact opts doc).components dir fs).2 =
      (convertHTMLToReact opts doc).components.map (fun c => pathJoin dir c.filename) :=
  writeComponents_written (convertHTMLToReact opts doc).components dir fs

/-! Claim C7: missing input is fatal and writes nothing. -/

/-- String concatenation is associative. -/
theorem str_append_assoc (a b c : String) : a ++ (b ++ c) = a ++ b ++ c := by
  cases a with | mk la => cases b with | mk lb => cases c with | mk lc =>
  exact congrArg String.mk (List.append_assoc la lb lc).symm

/-- C7: when the input HTML file is absent, loadFromFile fails with an error
naming the missing file, the run exits with code 1 printing that error, and
the file system is returned unchanged: nothing is written. -/
theorem missing_input_fatal (parseHTML : String → JSDoc) (fs : FS)
    (inputPath : String) (outputDir : Option String)
    (h : fsLookup fs inputPath = none) :
    loadFromFile fs inputPath = .error ("HTML file not found: " ++ inputPath) ∧
    runMain parseHTML fs inputPath outputDir =
      (fs, 1, "Error: HTML file not found: " ++ inputPath) := by
  constructor
  · simp [loadFromFile, h]
  · simp [runMain, loadFromFile, h, str_append_assoc]

/-- Witness for the C7 theorem on an empty file system. -/
theorem missing_input_fatal_witness :
    fsLookup [] "page.html" = none ∧
    runMain (fun _ => ⟨none⟩) [] "page.html" (some "out") =
      ([], 1, "Error: HTML file not found: page.html") :=
  ⟨rfl, (missing_input_fatal (fun _ => ⟨none⟩) [] "page.html" (some "out") rfl).2⟩

/-! Claim C10: determinism of conversion. -/

/-- Two independent conversion calls on the same parsed document, modelled
exactly as the source makes them: each call constructs a fresh converter. -/
def convertTwice (opts : ConvOptions) (doc : JSDoc) : ConvResult × ConvResult :=
  (convertHTMLToReact opts doc, convertHTMLToReact opts doc)

/-- C10: conversion is deterministic. Two independent calls agree on the
full JSX, the component list (names, file names, contents, order), the tree
and the boundary list; and each call starts its converter state (the
component counter) at zero, sharing nothing with prior calls. The source
keeps all mutable state on the per-call converter instance, so the embedded
conversion is a pure function of the document and options. -/
theorem convertHTMLToReact_deterministic (opts : ConvOptions) (doc : JSDoc) :
    (convertTwice opts doc).1.fullJSX = (convertTwice opts doc).2.fullJSX ∧
    (convertTwice opts doc).1.components = (convertTwice opts doc).2.components ∧
    (convertTwice opts doc).1.tree = (convertTwice opts doc).2.tree ∧
    (convertTwice opts doc).1.boundaries = (convertTwice opts doc).2.boundaries ∧
    (convertHTMLToReact opts doc).components = (extractAllComponents opts doc 0).1 :=
  ⟨rfl, rfl, rfl, rfl, rfl⟩

/-! Claim C9: skipped tags never reach the output. -/

mutual
/-- Every emitted JSX tree is free of skip-set tags. -/
theorem jsxTree_noSkip (opts : ConvOptions) : (n : HNode) → (j : JSXNode) →
    elementToJSXTree opts n = some j → jsxNoSkip j = true
  | .text s, j, h => by
    unfold elementToJSXTree at h
    by_cases ht : jsTrim s = ""
    · rw [if_pos ht] at h; exact Option.noConfusion h
    · rw [if_neg ht] at h; cases h; rfl
  | .comment s, j, h => by
    unfold elementToJSXTree at h
    by_cases hp : opts.preserveComments = true
    · rw [if_pos hp] at h; cases h; rfl
    · rw [if_neg hp] at h; exact Option.noConfusion h
  | .element tag attrs children, j, h => by
    unfold elementToJSXTree at h
    by_cases hskip : SKIP_TAGS.contains (jsLower tag) = true
    · rw [if_pos hskip] at h; exact Option.noConfusion h
    · rw [if_neg hskip] at h
      by_cases hsc : SELF_CLOSING_TAGS.contains (jsLower tag) = true
      · rw [if_pos hsc] at h
        cases h
        have hskip' : jsLower tag ∉ SKIP_TAGS := by simpa using hskip
        simp [jsxNoSkip, jsxNoSkipList, hskip']
      · rw [if_neg hsc] at h
        have hlist := jsxTrees_noSkip opts children
        cases hk : childJSXTrees opts children with
        | nil =>
          rw [hk] at h
          simp only [] at h
          by_cases htc : (jsTrim (textContentList children) != "") = true
          · rw [if_pos htc] at h; cases h
            have hskip' : jsLower tag ∉ SKIP_TAGS := by simpa using hskip
            simp [jsxNoSkip, jsxNoSkipList, hskip']
          · rw [if_neg htc] at h; cases h
            have hskip' : jsLower tag ∉ SKIP_TAGS := by simpa using hskip
            simp [jsxNoSkip, jsxNoSkipList, hskip']
        | cons j0 js =>
          rw [hk] at h
          simp only [] at h
          cases h
          rw [hk] at hlist
          have hskip' : jsLower tag ∉ SKIP_TAGS := by simpa using hskip
          simp [jsxNoSkip, hskip', hlist]
/-- The emitted children of any node list are free of skip-set tags. -/
theorem jsxTrees_noSkip (opts : ConvOptions) : (l : HNodes) →
    jsxNoSkipList (childJSXTrees opts l) = true
  | .nil => rfl
  | .cons h t => by
    unfold childJSXTrees
    cases hj : elementToJSXTree opts h with
    | none => simp only [hj]; exact jsxTrees_noSkip opts t
    | some j =>
      simp only [hj, jsxNoSkipList]
      simp [jsxTree_noSkip opts h j hj, jsxTrees_noSkip opts t]
end

mutual
/-- Every built component tree is free of skip-set tags. -/
theorem compTree_noSkip : (n : HNode) → (c : CompNode) →
    buildTree n = some c → compNoSkip c = true
  | .element tag attrs children, c, h => by
    unfold buildTree at h
    by_cases hskip : SKIP_TAGS.contains (jsLower tag) = true
    · rw [if_pos hskip] at h; exact Option.noConfusion h
    · rw [if_neg hskip] at h
      cases h
      have hskip' : jsLower tag ∉ SKIP_TAGS := by simpa using hskip
      simp [compNoSkip, hskip', compTrees_noSkip children]
  | .text s, c, h => Option.noConfusion h
  | .comment s, c, h => Option.noConfusion h
/-- The built component trees of any node list are free of skip-set tags. -/
theorem compTrees_noSkip : (l : HNodes) → compNoSkipList (buildTreeList l) = true
  | .nil => rfl
  | .cons h t => by
    unfold buildTreeList
    cases hb : buildTree h with
    | none => simp only [hb]; exact compTrees_noSkip t
    | some c =>
      simp only [hb, compNoSkipList]
      simp [compTree_noSkip h c hb, compTrees_noSkip t]
end

/-- C9: for every input node and document, no element with a tag from the
fixed skip set (script, style, noscript, link, meta) appears in the emitted
JSX structure or in the component tree: the converter drops the element and
its element subtree. -/
theorem skip_tags_dropped (opts : ConvOptions) (n : HNode) (doc : JSDoc) :
    (elementToJSXTree opts n).all jsxNoSkip = true ∧
    (buildTree n).all compNoSkip = true ∧
    (getComponentTree doc).all compNoSkip = true := by
  refine ⟨?_, ?_, ?_⟩
  · cases h : elementToJSXTree opts n with
    | none => rfl
    | some j => simpa using jsxTree_noSkip opts n j h
  · cases h : buildTree n with
    | none => rfl
    | some c => simpa using compTree_noSkip n c h
  · cases hb : doc.body with
    | none => simp [getComponentTree, hb]
    | some b =>
      cases h : buildTree b with
      | none => simp [getComponentTree, hb, h]
      | some c => simp [getComponentTree, hb, h, compTree_noSkip b c h]

/-! Claim C1: the round trip. -/

/-- A clean attribute is emitted as the token name="value" with name and
value verbatim: the strips, the renaming map, the style parse and the
boolean-attribute rewrite all pass it by. -/
theorem buildAttribute_clean (a : String × String) (h : cleanAttr a = true) :
    buildAttribute a = some (.strAttr a.1 a.2) := by
  unfold cleanAttr at h
  simp only [Bool.and_eq_true, beq_iff_eq, bne_iff_ne, Bool.not_eq_true'] at h
  obtain ⟨⟨⟨⟨⟨⟨⟨⟨⟨⟨_, hlow⟩, hon⟩, hdr⟩, hdv⟩, hstyle⟩, hmap⟩, _⟩, hv1⟩, hv2⟩, hv3⟩ := h
  unfold buildAttribute
  simp only [hlow, hon, hdr, hdv, hmap, Bool.or_self, Bool.false_eq_true, if_false,
    beq_eq_false_iff_ne.mpr hstyle, beq_eq_false_iff_ne.mpr hv1,
    beq_eq_false_iff_ne.mpr hv2, beq_eq_false_iff_ne.mpr hv3]
  by_cases hc : (a.1 == "className") = true <;> simp [hc]

/-- On clean attribute lists, buildAttributes emits one name="value" token
per attribute, in order. -/
theorem buildAttributes_clean (attrs : List (String × String))
    (h : attrs.all cleanAttr = true) :
    buildAttributes attrs = attrs.map (fun a => JSXAttr.strAttr a.1 a.2) := by
  induction attrs with
  | nil => rfl
  | cons a rest ih =>
    simp only [List.all_cons, Bool.and_eq_true] at h
    simp [buildAttributes, List.filterMap_cons, buildAttribute_clean a h.1]
    have := ih h.2
    unfold buildAttributes at this
    exact this

/-- Re-parsing the attribute tokens of a clean attribute list reads back
exactly the original name-value pairs. -/
theorem buildAttributes_pairs (attrs : List (String × String))
    (h : attrs.all cleanAttr = true) :
    (buildAttributes attrs).map (fun t => (t.attrName, t.reparsedValue)) = attrs := by
  rw [buildAttributes_clean attrs h, List.map_map]
  have hfun : ((fun t : JSXAttr => (t.attrName, t.reparsedValue)) ∘
      fun a : String × String => JSXAttr.strAttr a.1 a.2) = id :=
    funext (fun a => rfl)
  rw [hfun, List.map_id]

/-- A node list with no element nodes has no element skeletons. -/
theorem skelOfHNodes_nil_of_noElems : (l : HNodes) → noElems l = true →
    skelOfHNodes l = []
  | .nil, _ => rfl
  | .cons (.element tag attrs children) t, hne => absurd hne (by simp [noElems])
  | .cons (.text s) t, hne => by
    have hne' : noElems t = true := hne
    simp only [skelOfHNodes, skelOfHNode]
    exact skelOfHNodes_nil_of_noElems t hne'
  | .cons (.comment s) t, hne => by
    have hne' : noElems t = true := hne
    simp only [skelOfHNodes, skelOfHNode]
    exact skelOfHNodes_nil_of_noElems t hne'

mutual
/-- On clean documents the skeleton read back from the emitted markup is
the skeleton of the original document. -/
theorem skelJSX_eq (opts : ConvOptions) : (n : HNode) → cleanNode n = true →
    (elementToJSXTree opts n).bind skelOfJSX = skelOfHNode n
  | .text s, _ => by
    unfold elementToJSXTree
    by_cases ht : jsTrim s = "" <;> simp [ht, skelOfJSX, skelOfHNode]
  | .comment s, _ => by
    unfold elementToJSXTree
    by_cases hp : opts.preserveComments = true <;> simp [hp, skelOfJSX, skelOfHNode]
  | .element tag attrs children, h => by
    unfold cleanNode at h
    simp only [Bool.and_eq_true, beq_iff_eq, Bool.not_eq_true', Bool.or_eq_true] at h
    obtain ⟨⟨⟨⟨⟨⟨_, hlow⟩, hskip⟩, hattrs⟩, _⟩, hself⟩, hkids⟩ := h
    unfold elementToJSXTree
    rw [hlow]
    have hskip' : ¬(SKIP_TAGS.contains tag = true) := by rw [hskip]; simp
    rw [if_neg hskip']
    by_cases hsc : SELF_CLOSING_TAGS.contains tag = true
    · rw [if_pos hsc]
      have hne : noElems children = true := by
        cases hself with
        | inl h0 => rw [h0] at hsc; exact absurd hsc (by simp)
        | inr h0 => exact h0
      simp [skelOfJSX, skelOfHNode, skelOfJSXNodes,
        buildAttributes_pairs attrs hattrs, skelOfHNodes_nil_of_noElems children hne]
    · rw [if_neg hsc]
      have hlist := skelJSXList_eq opts children hkids
      cases hk : childJSXTrees opts children with
      | nil =>
        rw [hk] at hlist
        by_cases htc : (jsTrim (textContentList children) != "") = true
        · simp [htc, skelOfJSX, skelOfHNode, skelOfJSXNodes,
            buildAttributes_pairs attrs hattrs]
          exact hlist.symm
        · simp [htc, skelOfJSX, skelOfHNode, skelOfJSXNodes,
            buildAttributes_pairs attrs hattrs]
          exact hlist.symm
      | cons j0 js =>
        rw [hk] at hlist
        simp [skelOfJSX, skelOfHNode, buildAttributes_pairs attrs hattrs]
        exact hlist
/-- On clean node lists the emitted child skeletons are the original child
skeletons, in the same order. -/
theorem skelJSXList_eq (opts : ConvOptions) : (l : HNodes) → cleanNodes l = true →
    skelOfJSXNodes (childJSXTrees opts l) = skelOfHNodes l
  | .nil, _ => rfl
  | .cons hd t, hc => by
    unfold cleanNodes at hc
    simp only [Bool.and_eq_true] at hc
    obtain ⟨h1, h2⟩ := hc
    have ha := skelJSX_eq opts hd h1
    have ht := skelJSXList_eq opts t h2
    unfold childJSXTrees
    unfold skelOfHNodes
    cases hj : elementToJSXTree opts hd with
    | none =>
      rw [hj] at ha
      simp only [Option.none_bind] at ha
      rw [← ha]
      exact ht
    | some j =>
      rw [hj] at ha
      simp only [Option.some_bind] at ha
      unfold skelOfJSXNodes
      cases hs : skelOfJSX j with
      | none =>
        rw [hs] at ha
        rw [← ha]
        exact ht
      | some sk =>
        rw [hs] at ha
        rw [← ha]
        simp only []
        rw [ht]
end

/-- A body element carrying a class attribute. -/
def classedBody : HNode := .element "body" [("class", "page")] .nil

/-- C1 counterexample: the round trip does not preserve attribute sets. The
converter renames the class attribute to className, so re-parsing the
rendered markup of a body carrying a class attribute yields a different
attribute set than the original document. On this input the emitted token
stream is canonical (one quoted quote-free value, no text), so the
structural reading coincides with an actual parse of the rendered text. -/
theorem roundtrip_cex : ¬ roundTripPreserves classedBody := by
  intro h
  unfold roundTripPreserves at h
  have h1 : (elementToJSXTree defaultConvOptions classedBody).bind skelOfJSX =
      some (.node "body" [("className", "page")] []) := rfl
  have h2 : skelOfHNode classedBody = some (.node "body" [("class", "page")] []) := rfl
  rw [h1, h2] at h
  have h3 := Option.some.inj h
  injection h3 with htag hattr hchild
  exact absurd hattr (by decide)

/-- C1 (amended): the round trip preserves tag names, attribute name-value
sets and element child ordering exactly on documents whose rendering is
canonical markup: safe lowercase tags outside the skip set, pairwise
distinct attributes the converter transports unchanged and whose quoted
values re-parse verbatim (no event handlers, no framework data attributes,
no style, no names in the JSX map, no quote or ampersand in the value, and
no boolean-rewritten value), text free of markup-significant characters,
and no element children under self-closing tags. On such documents the
rendered text re-parses to exactly the emitted token structure, and that
structure equals the original document. Outside this domain the converter
renames, strips, drops or emits unescaped text, and the round trip fails. -/
theorem roundtrip_preserved_on_clean (n : HNode) (h : cleanNode n = true) :
    roundTripPreserves n :=
  skelJSX_eq defaultConvOptions n h

/-- A clean concrete document. -/
def cleanDoc : HNode :=
  .element "body" []
    (.cons (.element "div" [("href", "x")] .nil) (.cons (.text "hello") .nil))

/-- Witness for the amended C1 theorem. -/
theorem roundtrip_preserved_witness :
    cleanNode cleanDoc = true ∧ roundTripPreserves cleanDoc :=
  ⟨by decide, roundtrip_preserved_on_clean cleanDoc (by decide)⟩

/-! Claim C8: the style parser. -/

/-- Rebuilding a string from its characters is the identity. -/
theorem ofChars_strChars (s : String) : ofChars (strChars s) = s := by
  cases s; rfl

/-- Characters of a concatenation. -/
theorem strChars_append (a b : String) : strChars (a ++ b) = strChars a ++ strChars b := by
  cases a; cases b; rfl

/-- A string is empty exactly when it has no characters. -/
theorem strChars_eq_nil_iff (s : String) : strChars s = [] ↔ s = "" := by
  cases s with
  | mk d =>
    constructor
    · intro h; rw [show d = ([] : List Char) from h]
    · intro h; have := congrArg String.data h; simpa [strChars] using this

/-- Unfolding equation of splitChars on a cons cell. -/
theorem splitChars_cons (sep c : Char) (l : List Char) :
    splitChars sep (c :: l) =
      match splitChars sep l with
      | [] => [[]]
      | h :: t => if c = sep then [] :: h :: t else (c :: h) :: t := rfl

/-- Splitting a list free of the separator yields the singleton. -/
theorem splitChars_of_not_mem (sep : Char) :
    ∀ l : List Char, sep ∉ l → splitChars sep l = [l] := by
  intro l
  induction l with
  | nil => intro _; rfl
  | cons c rest ih =>
    intro h
    simp only [List.mem_cons, not_or] at h
    obtain ⟨hc, hrest⟩ := h
    have hcs : ¬ (c = sep) := fun hcc => hc hcc.symm
    rw [splitChars_cons, ih hrest]
    simp [hcs]

/-- splitChars never yields the empty list. -/
theorem splitChars_ne_nil (sep : Char) : ∀ l : List Char, splitChars sep l ≠ [] := by
  intro l
  cases l with
  | nil => simp [splitChars]
  | cons c rest =>
    rw [splitChars_cons]
    cases h : splitChars sep rest with
    | nil => simp
    | cons a t => by_cases hc : c = sep <;> simp [hc]

/-- Splitting around the first separator occurrence. -/
theorem splitChars_append_sep (sep : Char) :
    ∀ (a b : List Char), sep ∉ a →
      splitChars sep (a ++ sep :: b) = a :: splitChars sep b := by
  intro a
  induction a with
  | nil =>
    intro b _
    simp only [List.nil_append]
    cases hsb : splitChars sep b with
    | nil => exact absurd hsb (splitChars_ne_nil sep b)
    | cons x t =>
      rw [splitChars_cons, hsb]
      simp
  | cons c a' ih =>
    intro b h
    simp only [List.mem_cons, not_or] at h
    obtain ⟨hc, ha'⟩ := h
    have hcs : ¬ (c = sep) := fun hcc => hc hcc.symm
    simp only [List.cons_append]
    rw [splitChars_cons, ih b ha']
    simp [hcs]

/-- A list whose first and last characters are not whitespace is untouched
by trimming. -/
theorem trimChars_eq_self (l : List Char)
    (h1 : ∀ c, l.head? = some c → isWsChar c = false)
    (h2 : ∀ c, l.reverse.head? = some c → isWsChar c = false) :
    trimChars l = l := by
  have hd : l.dropWhile isWsChar = l := by
    cases l with
    | nil => rfl
    | cons c t =>
      have := h1 c rfl
      simp [List.dropWhile_cons, this]
  have hr : l.reverse.dropWhile isWsChar = l.reverse := by
    cases hrl : l.reverse with
    | nil => rfl
    | cons c t =>
      have := h2 c (by rw [hrl]; rfl)
      simp [List.dropWhile_cons, this]
  unfold trimChars
  rw [hd, hr, List.reverse_reverse]

/-- noWsEnds yields nonemptiness and the two boundary conditions. -/
theorem noWsEnds_spec (s : String) (h : noWsEnds s = true) :
    strChars s ≠ [] ∧
    (∀ c, (strChars s).head? = some c → isWsChar c = false) ∧
    (∀ c, (strChars s).reverse.head? = some c → isWsChar c = false) := by
  unfold noWsEnds at h
  cases hl : strChars s with
  | nil => rw [hl] at h; simp at h
  | cons c t =>
    rw [hl] at h
    cases hr : (c :: t).reverse with
    | nil => exact absurd (congrArg List.length hr) (by simp)
    | cons d u =>
      rw [hr] at h
      simp only [Bool.and_eq_true, Bool.not_eq_true'] at h
      refine ⟨by simp, ?_, ?_⟩
      · intro e he
        simp only [List.head?_cons, Option.some.injEq] at he
        rw [← he]; exact h.1
      · intro e he
        simp only [List.head?_cons, Option.some.injEq] at he
        rw [← he]; exact h.2

/-- A string with untrimmed ends is nonempty. -/
theorem ne_empty_of_noWsEnds (s : String) (h : noWsEnds s = true) : s ≠ "" := by
  intro hc
  exact (noWsEnds_spec s h).1 (by rw [hc]; rfl)

/-- Trimming is the identity on strings with no whitespace at the ends. -/
theorem jsTrim_eq_self (s : String) (h : noWsEnds s = true) : jsTrim s = s := by
  obtain ⟨_, h1, h2⟩ := noWsEnds_spec s h
  unfold jsTrim
  rw [trimChars_eq_self (strChars s) h1 h2, ofChars_strChars]

/-- Trimming absorbs one leading space. -/
theorem jsTrim_space_prefix (v : String) (h : noWsEnds v = true) :
    jsTrim (ofChars (' ' :: strChars v)) = v := by
  obtain ⟨hne, h1, h2⟩ := noWsEnds_spec v h
  unfold jsTrim
  have hx : strChars (ofChars (' ' :: strChars v)) = ' ' :: strChars v := rfl
  rw [hx]
  have hdrop : (' ' :: strChars v).dropWhile isWsChar = (strChars v).dropWhile isWsChar := by
    simp [List.dropWhile_cons, isWsChar]
  have hd : (strChars v).dropWhile isWsChar = strChars v := by
    cases hl : strChars v with
    | nil => rfl
    | cons c t =>
      have := h1 c (by rw [hl]; rfl)
      simp [List.dropWhile_cons, this]
  unfold trimChars
  rw [hdrop, hd]
  have hr : (strChars v).reverse.dropWhile isWsChar = (strChars v).reverse := by
    cases hrl : (strChars v).reverse with
    | nil => rfl
    | cons c t =>
      have := h2 c (by rw [hrl]; rfl)
      simp [List.dropWhile_cons, this]
  rw [hr, List.reverse_reverse, ofChars_strChars]

/-- The separator-freedom part of a well-formed declaration side. -/
theorem wf_side_not_mem (x : String)
    (h : (strChars x).all (fun c => !(c = ';') && !(c = ':')) = true) :
    ';' ∉ strChars x ∧ ':' ∉ strChars x := by
  constructor
  · intro hm
    have := List.all_eq_true.mp h _ hm
    simp at this
  · intro hm
    have := List.all_eq_true.mp h _ hm
    simp at this

/-- The character list of one rendered declaration. -/
theorem ruleChars (p v : String) :
    strChars (p ++ ": " ++ v) = strChars p ++ ':' :: ' ' :: strChars v := by
  rw [strChars_append, strChars_append, List.append_assoc]
  rfl

/-- Processing one well-formed rendered declaration assigns exactly its
camelCased property. -/
theorem processStyleRule_wf (obj : List (String × StyleValue)) (p v : String)
    (h : wfDecl p v = true) :
    processStyleRule obj (p ++ ": " ++ v) = objSet obj (cssCamel p) (.str v) := by
  unfold wfDecl at h
  simp only [Bool.and_eq_true] at h
  obtain ⟨⟨⟨hp, hv⟩, hpsep⟩, hvsep⟩ := h
  have hpc : ':' ∉ strChars p := (wf_side_not_mem p hpsep).2
  have hvc : ':' ∉ strChars v := (wf_side_not_mem v hvsep).2
  have hsplit : splitChars ':' (strChars (p ++ ": " ++ v)) =
      [strChars p, ' ' :: strChars v] := by
    rw [ruleChars]
    rw [splitChars_append_sep ':' (strChars p) (' ' :: strChars v) hpc]
    rw [splitChars_of_not_mem ':' (' ' :: strChars v) (by simp [hvc])]
  unfold processStyleRule jsSplit
  rw [hsplit]
  simp only [List.map_cons, List.map_nil, ofChars_strChars]
  rw [jsTrim_eq_self p hp, jsTrim_space_prefix v hv]
  have hp' : p ≠ "" := ne_empty_of_noWsEnds p hp
  have hv' : v ≠ "" := ne_empty_of_noWsEnds v hv
  simp [hp', hv']

/-- The components of a well-formed declaration. -/
theorem wfDecl_split (p v : String) (h : wfDecl p v = true) :
    noWsEnds p = true ∧ noWsEnds v = true ∧
    (strChars p).all (fun c => !(c = ';') && !(c = ':')) = true ∧
    (strChars v).all (fun c => !(c = ';') && !(c = ':')) = true := by
  unfold wfDecl at h
  simp only [Bool.and_eq_true] at h
  exact ⟨h.1.1.1, h.1.1.2, h.1.2, h.2⟩

/-- A rendered declaration contains no semicolon. -/
theorem rule_no_semi (p v : String) (hwf : wfDecl p v = true) :
    ';' ∉ strChars (p ++ ": " ++ v) := by
  obtain ⟨hp, hv, hps, hvs⟩ := wfDecl_split p v hwf
  rw [ruleChars]
  intro hm
  rcases List.mem_append.mp hm with h1 | h2
  · exact (wf_side_not_mem p hps).1 h1
  · simp only [List.mem_cons] at h2
    rcases h2 with h2 | h2 | h2
    · exact absurd h2 (by decide)
    · exact absurd h2 (by decide)
    · exact (wf_side_not_mem v hvs).1 h2

/-- A rendered declaration is nonempty. -/
theorem rule_ne_empty (p v : String) : p ++ ": " ++ v ≠ "" := by
  intro hc
  have h := congrArg strChars hc
  rw [ruleChars, show strChars "" = ([] : List Char) from rfl] at h
  simp at h

/-- Characters of a declaration list rendering with at least two entries. -/
theorem renderDecls_cons_chars (p v rest : String) :
    strChars (p ++ ": " ++ v ++ ";" ++ rest) =
      (strChars p ++ ':' :: ' ' :: strChars v) ++ ';' :: strChars rest := by
  rw [strChars_append, strChars_append, ruleChars, List.append_assoc]
  rfl

/-- Splitting the rendering of a well-formed declaration list recovers the
rendered declarations. -/
theorem rules_of_renderDecls : ∀ (l : List (String × String)), l ≠ [] →
    (∀ d ∈ l, wfDecl d.1 d.2 = true) →
    jsSplit ';' (renderDecls l) = l.map (fun d => d.1 ++ ": " ++ d.2) := by
  intro l
  induction l with
  | nil => intro h; exact absurd rfl h
  | cons d t ih =>
    intro _ hwf
    cases t with
    | nil =>
      show jsSplit ';' (d.1 ++ ": " ++ d.2) = [d.1 ++ ": " ++ d.2]
      unfold jsSplit
      rw [splitChars_of_not_mem ';' _ (rule_no_semi d.1 d.2 (hwf d (by simp)))]
      simp [ofChars_strChars]
    | cons d' t' =>
      have hmem : ';' ∉ strChars d.1 ++ ':' :: ' ' :: strChars d.2 := by
        have := rule_no_semi d.1 d.2 (hwf d (by simp))
        rw [ruleChars] at this
        exact this
      show jsSplit ';' (d.1 ++ ": " ++ d.2 ++ ";" ++ renderDecls (d' :: t')) =
        (d.1 ++ ": " ++ d.2) :: (d' :: t').map (fun d => d.1 ++ ": " ++ d.2)
      unfold jsSplit
      rw [renderDecls_cons_chars, splitChars_append_sep ';' _ _ hmem]
      simp only [List.map_cons]
      have h1 : ofChars (strChars d.1 ++ ':' :: ' ' :: strChars d.2) =
          d.1 ++ ": " ++ d.2 := by
        rw [← ruleChars, ofChars_strChars]
      have h2 := ih (by simp) (fun e he => hwf e (by simp [he]))
      unfold jsSplit at h2
      rw [h1, h2]
      rfl

/-- The rendering of a nonempty well-formed declaration list is nonempty. -/
theorem renderDecls_ne_empty (l : List (String × String)) (h0 : l ≠ []) :
    renderDecls l ≠ "" := by
  cases l with
  | nil => exact absurd rfl h0
  | cons d t =>
    cases t with
    | nil => exact rule_ne_empty d.1 d.2
    | cons d' t' =>
      intro hc
      have h := congrArg strChars hc
      rw [show renderDecls (d :: d' :: t') =
        d.1 ++ ": " ++ d.2 ++ ";" ++ renderDecls (d' :: t') from rfl] at h
      rw [renderDecls_cons_chars, show strChars "" = ([] : List Char) from rfl] at h
      simp at h

/-- A filter keeping nonempty strings is the identity on lists of nonempty
strings. -/
theorem filter_rules (l : List String) (h : ∀ r ∈ l, r ≠ "") :
    l.filter (fun r => r != "") = l := by
  induction l with
  | nil => rfl
  | cons a t ih =>
    have ha := h a (by simp)
    simp [List.filter_cons, ha, ih (fun r hr => h r (by simp [hr]))]

/-- Assigning a fresh key appends the entry. -/
theorem objSet_fresh (obj : List (String × StyleValue)) (k : String) (v : StyleValue)
    (h : ∀ e ∈ obj, e.1 ≠ k) : objSet obj k v = obj ++ [(k, v)] := by
  unfold objSet
  rw [if_neg]
  intro hc
  simp only [List.any_eq_true] at hc
  obtain ⟨e, he, hek⟩ := hc
  exact h e he (by simpa using hek)

/-- Folding the rendered declarations over the style object appends one
entry per declaration, when the camelCased properties are fresh and
pairwise distinct. -/
theorem foldl_rules (l : List (String × String)) :
    ∀ obj : List (String × StyleValue),
    (∀ d ∈ l, wfDecl d.1 d.2 = true) →
    (l.map (fun d => cssCamel d.1)).Nodup →
    (∀ d ∈ l, ∀ e ∈ obj, e.1 ≠ cssCamel d.1) →
    (l.map (fun d => d.1 ++ ": " ++ d.2)).foldl processStyleRule obj =
      obj ++ l.map (fun d => (cssCamel d.1, StyleValue.str d.2)) := by
  induction l with
  | nil => intro obj _ _ _; simp
  | cons d t ih =>
    intro obj hwf hnd hfresh
    simp only [List.map_cons, List.foldl_cons]
    rw [processStyleRule_wf obj d.1 d.2 (hwf d (by simp))]
    rw [objSet_fresh obj _ _ (fun e he => hfresh d (by simp) e he)]
    simp only [List.map_cons, List.nodup_cons] at hnd
    rw [ih (obj ++ [(cssCamel d.1, StyleValue.str d.2)])
      (fun e he => hwf e (by simp [he])) hnd.2 ?_]
    · simp
    · intro d' hd' e he
      rcases List.mem_append.mp he with h1 | h2
      · exact hfresh d' (by simp [hd']) e h1
      · simp only [List.mem_singleton] at h2
        rw [h2]
        intro hc
        have hc' : cssCamel d.1 = cssCamel d'.1 := hc
        exact hnd.1 (by rw [hc']; exact List.mem_map_of_mem (fun d => cssCamel d.1) hd')

/-- formatStyleObject renders a string-valued entry as key colon quoted
value. -/
theorem formatStyleEntry_str (k s : String) :
    formatStyleEntry (k, .str s) = k ++ ": \"" ++ s ++ "\"" := by
  unfold formatStyleEntry
  rw [str_append_assoc, str_append_assoc, ← str_append_assoc k ": " "\""]
  rfl

/-- C8 counterexample: the parsed style map does not have one entry per
declaration. A duplicated property collapses to a single entry (the later
declaration overwrites), so the map read literally from the claim differs
from the parsed map. -/
theorem style_map_cex :
    parseStyleString "color: red; color: blue" = some [("color", StyleValue.str "blue")] ∧
    specStyleMap "color: red; color: blue" =
      some [("color", StyleValue.str "red"), ("color", StyleValue.str "blue")] ∧
    parseStyleString "color: red; color: blue" ≠ specStyleMap "color: red; color: blue" := by
  refine ⟨by decide, by decide, by decide⟩

/-- C8 (amended): on a semicolon-separated list of well-formed declarations
with pairwise distinct camelCased properties, parseStyleString returns
exactly one entry per declaration, keyed by the camelCased property with the
trimmed value text (later duplicate properties would overwrite earlier ones,
and value text is read only up to a further colon); it returns null when no
declarations are present; and formatStyleObject renders such a map as a JSX
double-brace object literal with quoted values, not as a re-parseable
inline style string. -/
theorem parseStyleString_spec (l : List (String × String)) (h0 : l ≠ [])
    (hwf : ∀ d ∈ l, wfDecl d.1 d.2 = true)
    (hnd : (l.map (fun d => cssCamel d.1)).Nodup) :
    parseStyleString (renderDecls l) =
      some (l.map (fun d => (cssCamel d.1, StyleValue.str d.2))) ∧
    parseStyleString "" = none ∧
    formatStyleObject (some (l.map (fun d => (cssCamel d.1, StyleValue.str d.2)))) =
      some ("\x7b\x7b " ++
        joinSep ", " (l.map (fun d => cssCamel d.1 ++ ": \"" ++ d.2 ++ "\"")) ++
        " \x7d\x7d") := by
  refine ⟨?_, rfl, ?_⟩
  · unfold parseStyleString
    rw [if_neg (renderDecls_ne_empty l h0)]
    have hflt : (jsSplit ';' (renderDecls l)).filter (fun r => r != "") =
        l.map (fun d => d.1 ++ ": " ++ d.2) := by
      rw [rules_of_renderDecls l h0 hwf]
      exact filter_rules _ (by
        intro r hr
        obtain ⟨d, _, hd⟩ := List.mem_map.mp hr
        rw [← hd]
        exact rule_ne_empty d.1 d.2)
    simp only [hflt,
      foldl_rules l [] hwf hnd (fun d _ e he => absurd he (List.not_mem_nil e)),
      List.nil_append]
    rw [if_pos]
    cases l with
    | nil => exact absurd rfl h0
    | cons d t => simp
  · have hfun : (formatStyleEntry ∘ fun d : String × String =>
        (cssCamel d.1, StyleValue.str d.2)) =
        fun d : String × String => cssCamel d.1 ++ ": \"" ++ d.2 ++ "\"" :=
      funext (fun d => formatStyleEntry_str (cssCamel d.1) d.2)
    show some ("\x7b\x7b " ++
        joinSep ", " (List.map formatStyleEntry
          (l.map (fun d => (cssCamel d.1, StyleValue.str d.2)))) ++ " \x7d\x7d") = _
    rw [List.map_map, hfun]

/-- The declaration list of the C8 witness. -/
def wDecls : List (String × String) := [("background-color", "red"), ("margin", "0 auto")]

/-- Witness for the amended C8 theorem at a concrete declaration list. -/
theorem parseStyleString_spec_witness :
    (wDecls ≠ [] ∧ (∀ d ∈ wDecls, wfDecl d.1 d.2 = true) ∧
      (wDecls.map (fun d => cssCamel d.1)).Nodup) ∧
    parseStyleString (renderDecls wDecls) =
      some [("backgroundColor", StyleValue.str "red"), ("margin", StyleValue.str "0 auto")] :=
  ⟨⟨by decide, by decide, by decide⟩,
   ((parseStyleString_spec wDecls (by decide) (by decide) (by decide)).1).trans (by decide)⟩

/-! Claim C3: monotonicity of boundary detection. -/

/-- find? over an append when the left part finds a hit. -/
theorem find?_append_some {α : Type} (p : α → Bool) :
    ∀ (l₁ l₂ : List α) (x : α), l₁.find? p = some x → (l₁ ++ l₂).find? p = some x := by
  intro l₁
  induction l₁ with
  | nil => intro l₂ x h; simp [List.find?] at h
  | cons a t ih =>
    intro l₂ x h
    by_cases hp : p a = true
    · rw [List.find?_cons_of_pos _ hp] at h
      rw [List.cons_append, List.find?_cons_of_pos _ hp]
      exact h
    · rw [List.find?_cons_of_neg _ (by simpa using hp)] at h
      rw [List.cons_append, List.find?_cons_of_neg _ (by simpa using hp)]
      exact ih l₂ x h

/-- find? over an append when the left part finds nothing. -/
theorem find?_append_none {α : Type} (p : α → Bool) :
    ∀ (l₁ l₂ : List α), l₁.find? p = none → (l₁ ++ l₂).find? p = l₂.find? p := by
  intro l₁
  induction l₁ with
  | nil => intro l₂ _; rfl
  | cons a t ih =>
    intro l₂ h
    by_cases hp : p a = true
    · rw [List.find?_cons_of_pos _ hp] at h
      exact Option.noConfusion h
    · rw [List.find?_cons_of_neg _ (by simpa using hp)] at h
      rw [List.cons_append, List.find?_cons_of_neg _ (by simpa using hp)]
      exact ih l₂ h

/-- One step of the class-pattern pass, compared between a pattern list P
and its extension P ++ Q. Boundaries already found under P survive, and any
extra boundary of the extended run matches no pattern of P and claims the
current element index. -/
theorem classPatternStep_mono (P Q : List ClassPattern) (i : Nat) (el : HNode)
    (restIdx : List Nat) (hi : i ∉ restIdx) (B B' : List Boundary)
    (hsub : ∀ b ∈ B, b ∈ B')
    (hinv : ∀ b' ∈ B', b' ∈ B ∨
      (P.find? (fun cp => cp.test b'.className) = none ∧
        b'.elemIdx ≠ i ∧ b'.elemIdx ∉ restIdx)) :
    (∀ b ∈ classPatternStep P B i el, b ∈ classPatternStep (P ++ Q) B' i el) ∧
    (∀ b' ∈ classPatternStep (P ++ Q) B' i el, b' ∈ classPatternStep P B i el ∨
      (P.find? (fun cp => cp.test b'.className) = none ∧ b'.elemIdx ∉ restIdx)) := by
  by_cases hcl : (elAttr "class" el).isSome = true
  case neg =>
    have e1 : classPatternStep P B i el = B := by
      unfold classPatternStep; rw [if_neg hcl]
    have e2 : classPatternStep (P ++ Q) B' i el = B' := by
      unfold classPatternStep; rw [if_neg hcl]
    rw [e1, e2]
    refine ⟨hsub, fun b' hb' => ?_⟩
    rcases hinv b' hb' with h | ⟨h1, _, h3⟩
    · exact Or.inl h
    · exact Or.inr ⟨h1, h3⟩
  case pos =>
  cases hfP : P.find? (fun cp => cp.test (elClassName el)) with
  | some cp =>
    have hfPQ : (P ++ Q).find? (fun cp => cp.test (elClassName el)) = some cp :=
      find?_append_some _ P Q cp hfP
    cases hdB : B.any (fun b =>
        b.elemIdx == i || (b.className == elClassName el && b.type == jsLower (elTag el))) with
    | true =>
      have hdB' : B'.any (fun b =>
          b.elemIdx == i ||
            (b.className == elClassName el && b.type == jsLower (elTag el))) = true := by
        obtain ⟨b, hbB, hdb⟩ := List.any_eq_true.mp hdB
        exact List.any_eq_true.mpr ⟨b, hsub b hbB, hdb⟩
      have e1 : classPatternStep P B i el = B := by
        unfold classPatternStep; simp [hcl, hfP, hdB]
      have e2 : classPatternStep (P ++ Q) B' i el = B' := by
        unfold classPatternStep; simp [hcl, hfPQ, hdB']
      rw [e1, e2]
      refine ⟨hsub, fun b' hb' => ?_⟩
      rcases hinv b' hb' with h | ⟨h1, _, h3⟩
      · exact Or.inl h
      · exact Or.inr ⟨h1, h3⟩
    | false =>
      have hdB' : B'.any (fun b =>
          b.elemIdx == i ||
            (b.className == elClassName el && b.type == jsLower (elTag el))) = false := by
        cases hc : B'.any (fun b =>
            b.elemIdx == i ||
              (b.className == elClassName el && b.type == jsLower (elTag el))) with
        | false => rfl
        | true =>
          exfalso
          obtain ⟨b', hb', hdb'⟩ := List.any_eq_true.mp hc
          rcases hinv b' hb' with hbB | ⟨hnoP, hne, _⟩
          · have : B.any (fun b =>
                b.elemIdx == i ||
                  (b.className == elClassName el && b.type == jsLower (elTag el))) = true :=
              List.any_eq_true.mpr ⟨b', hbB, hdb'⟩
            rw [hdB] at this
            exact Bool.noConfusion this
          · simp only [Bool.or_eq_true, Bool.and_eq_true, beq_iff_eq] at hdb'
            rcases hdb' with hidx | ⟨hcls, _⟩
            · exact hne hidx
            · rw [hcls] at hnoP
              exact Option.noConfusion (hfP.symm.trans hnoP)
      have e1 : classPatternStep P B i el = B ++
          [{ type := jsLower (elTag el), role := none, id := elId el,
             className := elClassName el, elemIdx := i, suggestedName := cp.name }] := by
        unfold classPatternStep; simp [hcl, hfP, hdB]
      have e2 : classPatternStep (P ++ Q) B' i el = B' ++
          [{ type := jsLower (elTag el), role := none, id := elId el,
             className := elClassName el, elemIdx := i, suggestedName := cp.name }] := by
        unfold classPatternStep; simp [hcl, hfPQ, hdB']
      rw [e1, e2]
      constructor
      · intro b hb
        rcases List.mem_append.mp hb with h | h
        · exact List.mem_append.mpr (Or.inl (hsub b h))
        · exact List.mem_append.mpr (Or.inr h)
      · intro b' hb'
        rcases List.mem_append.mp hb' with h | h
        · rcases hinv b' h with hB | ⟨h1, _, h3⟩
          · exact Or.inl (List.mem_append.mpr (Or.inl hB))
          · exact Or.inr ⟨h1, h3⟩
        · exact Or.inl (List.mem_append.mpr (Or.inr h))
  | none =>
    have e1 : classPatternStep P B i el = B := by
      unfold classPatternStep; simp [hcl, hfP]
    have hfPQ : (P ++ Q).find? (fun cp => cp.test (elClassName el)) =
        Q.find? (fun cp => cp.test (elClassName el)) :=
      find?_append_none _ P Q hfP
    cases hfQ : Q.find? (fun cp => cp.test (elClassName el)) with
    | none =>
      have e2 : classPatternStep (P ++ Q) B' i el = B' := by
        unfold classPatternStep; simp [hcl, hfPQ, hfQ]
      rw [e1, e2]
      refine ⟨hsub, fun b' hb' => ?_⟩
      rcases hinv b' hb' with h | ⟨h1, _, h3⟩
      · exact Or.inl h
      · exact Or.inr ⟨h1, h3⟩
    | some cq =>
      rw [hfQ] at hfPQ
      cases hdB' : B'.any (fun b =>
          b.elemIdx == i ||
            (b.className == elClassName el && b.type == jsLower (elTag el))) with
      | true =>
        have e2 : classPatternStep (P ++ Q) B' i el = B' := by
          unfold classPatternStep; simp [hcl, hfPQ, hdB']
        rw [e1, e2]
        refine ⟨hsub, fun b' hb' => ?_⟩
        rcases hinv b' hb' with h | ⟨h1, _, h3⟩
        · exact Or.inl h
        · exact Or.inr ⟨h1, h3⟩
      | false =>
        have e2 : classPatternStep (P ++ Q) B' i el = B' ++
            [{ type := jsLower (elTag el), role := none, id := elId el,
               className := elClassName el, elemIdx := i, suggestedName := cq.name }] := by
          unfold classPatternStep; simp [hcl, hfPQ, hdB']
        rw [e1, e2]
        constructor
        · intro b hb
          exact List.mem_append.mpr (Or.inl (hsub b hb))
        · intro b' hb'
          rcases List.mem_append.mp hb' with h | h
          · rcases hinv b' h with hB | ⟨h1, _, h3⟩
            · exact Or.inl hB
            · exact Or.inr ⟨h1, h3⟩
          · simp only [List.mem_singleton] at h
            refine Or.inr ?_
            rw [h]
            exact ⟨hfP, hi⟩

/-- The class-pattern pass under P ++ Q keeps every boundary the pass under
P produces, given the running invariant on the two boundary lists. -/
theorem classPatternPass_mono (P Q : List ClassPattern) :
    ∀ (L : List (Nat × HNode)), (L.map Prod.fst).Nodup →
    ∀ (B B' : List Boundary),
    (∀ b ∈ B, b ∈ B') →
    (∀ b' ∈ B', b' ∈ B ∨
      (P.find? (fun cp => cp.test b'.className) = none ∧
        b'.elemIdx ∉ L.map Prod.fst)) →
    ∀ b ∈ classPatternPass P L B, b ∈ classPatternPass (P ++ Q) L B' := by
  intro L
  induction L with
  | nil =>
    intro _ B B' hsub _ b hb
    exact hsub b hb
  | cons ie rest ih =>
    intro hnd B B' hsub hinv b hb
    obtain ⟨i, el⟩ := ie
    simp only [List.map_cons, List.nodup_cons] at hnd
    obtain ⟨hni, hndr⟩ := hnd
    have hinv' : ∀ b' ∈ B', b' ∈ B ∨
        (P.find? (fun cp => cp.test b'.className) = none ∧
          b'.elemIdx ≠ i ∧ b'.elemIdx ∉ rest.map Prod.fst) := by
      intro b' hb'
      rcases hinv b' hb' with h | ⟨h1, h2⟩
      · exact Or.inl h
      · simp only [List.map_cons, List.mem_cons, not_or] at h2
        exact Or.inr ⟨h1, h2.1, h2.2⟩
    obtain ⟨hstep1, hstep2⟩ :=
      classPatternStep_mono P Q i el (rest.map Prod.fst) hni B B' hsub hinv'
    exact ih hndr (classPatternStep P B i el) (classPatternStep (P ++ Q) B' i el)
      hstep1 hstep2 b hb

/-- The element indices of a document are pairwise distinct. -/
theorem docElems_fst_nodup (doc : JSDoc) : ((docElems doc).map Prod.fst).Nodup := by
  unfold docElems
  cases doc.body with
  | none => simp
  | some b => exact List.nodup_enum_map_fst _

/-- The first class-matching pattern, in declaration order, of the source. -/
def patCard : ClassPattern := ⟨fun s => icontains s "card", "Card"⟩

/-- A pattern matching the word button. -/
def patButton : ClassPattern := ⟨fun s => icontains s "button", "Button"⟩

/-- A document with one element whose class matches both patterns. -/
def cardDoc : JSDoc :=
  ⟨some (.element "body" [] (.cons (.element "div" [("class", "button-card")] .nil) .nil))⟩

/-- The boundary found for cardDoc under the pattern list holding only
patCard. -/
def cardBoundary : Boundary :=
  ⟨"div", none, "", "button-card", 1, "Card"⟩

/-- C3 counterexample: enlarging the pattern list to a superset can remove a
previously found boundary, because only the first matching pattern names a
boundary. Inserting patButton before patCard renames the boundary of the
button-card element, so the boundary found under the smaller list is gone. -/
theorem boundary_monotonicity_cex :
    [patCard] ⊆ [patButton, patCard] ∧
    cardBoundary ∈ (extractComponentBoundariesWith [patCard] cardDoc 0).1 ∧
    cardBoundary ∉ (extractComponentBoundariesWith [patButton, patCard] cardDoc 0).1 := by
  refine ⟨?_, by decide, by decide⟩
  intro p hp
  simp only [List.mem_singleton] at hp
  rw [hp]
  exact List.mem_cons_of_mem _ (List.mem_singleton_self _)

/-- C3 (amended): boundary detection is monotonic under extending the
pattern list at the end (preserving the order and priority of the existing
patterns): every boundary found by extractComponentBoundaries under a
pattern list P is also found under P ++ Q. For arbitrary supersets the
property fails, since only the first matching pattern names a boundary. -/
theorem boundary_monotonic_append (P Q : List ClassPattern) (doc : JSDoc)
    (counter : Nat) :
    ∀ b ∈ (extractComponentBoundariesWith P doc counter).1,
      b ∈ (extractComponentBoundariesWith (P ++ Q) doc counter).1 := by
  intro b hb
  unfold extractComponentBoundariesWith at hb ⊢
  exact classPatternPass_mono P Q (docElems doc) (docElems_fst_nodup doc)
    (semanticPass (docElems doc) counter).1 (semanticPass (docElems doc) counter).1
    (fun b hb => hb) (fun b' hb' => Or.inl hb') b hb

/-- Witness for the amended C3 theorem: the Card boundary found under the
one-pattern list survives appending the button pattern. -/
theorem boundary_monotonic_append_witness :
    cardBoundary ∈ (extractComponentBoundariesWith [patCard] cardDoc 0).1 ∧
    cardBoundary ∈ (extractComponentBoundariesWith ([patCard] ++ [patButton]) cardDoc 0).1 :=
  ⟨by decide,
   boundary_monotonic_append [patCard] [patButton] cardDoc 0 cardBoundary (by decide)⟩

end HtmlToReact
